import Mathlib

/-!
# CPP_Seminar: the programming exercises and lecture examples

A shallow embedding of `Programming/Week03/modern_dyn_int_array.{h,cpp}`,
`Programming/Week05/data_transforms.cpp`, `Programming/Week06/ratio.h`,
`Programming/Week07/logged_map.h`, `Programming/Week08/pow_two.h`,
`Programming/Week11/variadic_assert.h`, `Lecture11-Variadics/1_variadics.cpp` and
`Lectures/Lecture08-TypeAliasingAndConstExpression/3_constexpr.cpp`, with the properties
proved about them.

Conventions of the embedding.

* A member function is a function of the object's state that returns an `Outcome`:
  normal return with the new state, an exception together with the state the object
  was left in, `std::terminate`, or undefined behaviour.
* `size_t` values of the array (sizes, capacities, indices) are natural numbers.  A
  buffer of `m_cap` four-byte `int`s lives in a 64-bit address space, so `m_size + 1`
  and `2 * m_cap` stay far below `2 ^ 64` in every state in which the allocation they
  feed succeeds; allocation itself is taken to succeed.
* `size_t` values that are computed with, in `pow_two` and the Fibonacci functions, are
  natural numbers below `2 ^ 64`, and every multiplication and addition is reduced
  modulo `2 ^ 64`.
* The heap buffer behind `std::unique_ptr<int[]>` is a list whose length is the number
  of allocated elements.  Every subscript is checked against that length: an access
  outside the buffer makes the operation `undefined`.  A `std::vector<int>` is a list
  with the same checked subscript; a function that can only fail in this way returns
  an `Option`.
* `long` values of `ratio` and `long long` values are integers.  Signed overflow is
  undefined in C++, so the defined executions are exactly those on which the arithmetic
  agrees with integer arithmetic.  `/` and `%` truncate towards zero (`Int.tdiv`,
  `Int.tmod`).  The unqualified `abs` of `ratio.h` is the C function on `int`: its
  `long` argument is first converted to `int`.
* A constructor or a value-returning operator is an `Outcome` as well: `returned` then
  carries the constructed or returned object.
* Output streams are the list of lines, or the text, written so far.
-/

/-- Exceptions thrown by the two classes, with their `what()` text. -/
inductive Exn where
  | invalid_argument (what : String)
  | domain_error (what : String)
  deriving DecidableEq, Repr

/-- The way a call on an object with state `σ` ends. -/
inductive Outcome (σ : Type) where
  /-- Normal return; the object is in state `s`. -/
  | returned (s : σ)
  /-- An exception left the call; the object is in state `s`. -/
  | raised (e : Exn) (s : σ)
  /-- An exception tried to leave a `noexcept` function: `std::terminate`. -/
  | terminated
  /-- Undefined behaviour: a subscript outside the buffer, an integer division by zero,
  `abs` of `INT_MIN`. -/
  | undefined
  deriving DecidableEq, Repr

/-- A straight-line block that can only fail by undefined behaviour. -/
def Outcome.ofDefined {σ : Type} : Option σ → Outcome σ
  | some s => Outcome.returned s
  | none => Outcome.undefined

/-- The effect of the `noexcept` specifier on a function body's outcome. -/
def Outcome.noexcept {σ : Type} : Outcome σ → Outcome σ
  | Outcome.raised _ _ => Outcome.terminated
  | o => o

/-- The exception a call ended with, if any. -/
def Outcome.thrown {σ : Type} : Outcome σ → Option Exn
  | Outcome.raised e _ => some e
  | _ => none

/-! ## Week03: `modern_dyn_int_array` -/

/-- The data members of `modern_dyn_int_array`. -/
structure modern_dyn_int_array where
  m_cap : Nat
  m_size : Nat
  m_arr : List Int
  deriving DecidableEq, Repr

/-- Reading `arr[i]`: defined only inside the buffer. -/
def modern_dyn_int_array.load (arr : List Int) (i : Nat) : Option Int :=
  arr[i]?

/-- Writing `arr[i] = v`: defined only inside the buffer. -/
def modern_dyn_int_array.store (arr : List Int) (i : Nat) (v : Int) : Option (List Int) :=
  if i < arr.length then some (arr.set i v) else none

/-- The loop of `resize`, entered with counter `i` and the new buffer `new_arr`:
`for(; i < _cap; ++i) { if(i < m_cap) new_arr[i] = m_arr[i]; else new_arr[i] = 0; }`. -/
def modern_dyn_int_array.resize_loop (m_cap : Nat) (m_arr : List Int) (_cap : Nat)
    (i : Nat) (new_arr : List Int) : Option (List Int) :=
  if i < _cap then
    if i < m_cap then
      match modern_dyn_int_array.load m_arr i with
      | none => none
      | some v =>
        match modern_dyn_int_array.store new_arr i v with
        | none => none
        | some new_arr => modern_dyn_int_array.resize_loop m_cap m_arr _cap (i + 1) new_arr
    else
      match modern_dyn_int_array.store new_arr i 0 with
      | none => none
      | some new_arr => modern_dyn_int_array.resize_loop m_cap m_arr _cap (i + 1) new_arr
  else some new_arr
termination_by _cap - i

/-- The member `resize(_cap)`: `std::make_unique<int[]>(_cap)` value-initialises `_cap` zeros, the
loop copies, then the buffers are swapped and `m_cap` is set. -/
def modern_dyn_int_array.resize (s : modern_dyn_int_array) (_cap : Nat) :
    Option modern_dyn_int_array :=
  match modern_dyn_int_array.resize_loop s.m_cap s.m_arr _cap 0 (List.replicate _cap 0) with
  | none => none
  | some new_arr => some { s with m_arr := new_arr, m_cap := _cap }

/-- The constructor `modern_dyn_int_array()`: `m_size{0}, m_cap{0}`, an empty
`unique_ptr`, then `resize(10)`. -/
def modern_dyn_int_array.ctor : Outcome modern_dyn_int_array :=
  Outcome.ofDefined
    (modern_dyn_int_array.resize { m_cap := 0, m_size := 0, m_arr := [] } 10)

/-- The accessor `size()`. -/
def modern_dyn_int_array.size (s : modern_dyn_int_array) : Nat :=
  s.m_size

/-- The subscript `operator[]`: `m_arr[_i]`, with no check against `m_size`. -/
def modern_dyn_int_array.subscript (s : modern_dyn_int_array) (_i : Nat) : Option Int :=
  modern_dyn_int_array.load s.m_arr _i

/-- The loop of `add`, entered with counter `j`:
`for(; j > _i; --j) m_arr[j] = m_arr[j-1];`. -/
def modern_dyn_int_array.add_loop (_i : Nat) : Nat → List Int → Option (List Int)
  | 0, m_arr => some m_arr
  | j + 1, m_arr =>
    if j + 1 > _i then
      match modern_dyn_int_array.load m_arr j with
      | none => none
      | some v =>
        match modern_dyn_int_array.store m_arr (j + 1) v with
        | none => none
        | some m_arr => modern_dyn_int_array.add_loop _i j m_arr
    else some m_arr

/-- The guarded block of `add`: resize when full, shift, write, `++m_size`. -/
def modern_dyn_int_array.add_block (s : modern_dyn_int_array) (_i : Nat) (_e : Int) :
    Option modern_dyn_int_array :=
  match (if s.m_size = s.m_cap then s.resize (2 * s.m_cap) else some s) with
  | none => none
  | some s =>
    match modern_dyn_int_array.add_loop _i s.m_size s.m_arr with
    | none => none
    | some m_arr =>
      match modern_dyn_int_array.store m_arr _i _e with
      | none => none
      | some m_arr => some { s with m_arr := m_arr, m_size := s.m_size + 1 }

/-- The member `add(_i, _e)`: the guarded block, or `throw std::invalid_argument`. -/
def modern_dyn_int_array.add (s : modern_dyn_int_array) (_i : Nat) (_e : Int) :
    Outcome modern_dyn_int_array :=
  if _i < s.m_size + 1 then
    Outcome.ofDefined (s.add_block _i _e)
  else
    Outcome.raised (Exn.invalid_argument "Bad add index") s

/-- The loop of `remove`, entered with counter `j`:
`for(; j < m_size - 1; ++j) m_arr[j] = m_arr[j+1];`. -/
def modern_dyn_int_array.remove_loop (m_size : Nat) (j : Nat) (m_arr : List Int) :
    Option (List Int) :=
  if j < m_size - 1 then
    match modern_dyn_int_array.load m_arr (j + 1) with
    | none => none
    | some v =>
      match modern_dyn_int_array.store m_arr j v with
      | none => none
      | some m_arr => modern_dyn_int_array.remove_loop m_size (j + 1) m_arr
  else some m_arr
termination_by m_size - 1 - j

/-- The guarded block of `remove`: shift, zero the last slot, `--m_size`. -/
def modern_dyn_int_array.remove_block (s : modern_dyn_int_array) (_i : Nat) :
    Option modern_dyn_int_array :=
  match modern_dyn_int_array.remove_loop s.m_size _i s.m_arr with
  | none => none
  | some m_arr =>
    match modern_dyn_int_array.store m_arr (s.m_size - 1) 0 with
    | none => none
    | some m_arr => some { s with m_arr := m_arr, m_size := s.m_size - 1 }

/-- The member `remove(_i)`: the guarded block, or `throw std::invalid_argument`. -/
def modern_dyn_int_array.remove (s : modern_dyn_int_array) (_i : Nat) :
    Outcome modern_dyn_int_array :=
  if _i < s.m_size then
    Outcome.ofDefined (s.remove_block _i)
  else
    Outcome.raised (Exn.invalid_argument "Bad remove index") s

/-- The logical contents `a[0..size)`. -/
def modern_dyn_int_array.contents (s : modern_dyn_int_array) : List Int :=
  s.m_arr.take s.m_size

/-- The representation invariant the operations rely on: the buffer has `m_cap`
elements, at most `m_cap` of them are in use, and the capacity is positive. -/
def modern_dyn_int_array.WellFormed (s : modern_dyn_int_array) : Prop :=
  s.m_arr.length = s.m_cap ∧ s.m_size ≤ s.m_cap ∧ 0 < s.m_cap

instance (s : modern_dyn_int_array) : Decidable s.WellFormed := by
  unfold modern_dyn_int_array.WellFormed
  infer_instance

/-! ## Week06: `ratio` -/

/-- The data members of `ratio`. -/
structure ratio where
  m_num : Int
  m_den : Int
  deriving DecidableEq, Repr

/-- The helper `gcd(_a, _b)`: `while(_b != 0) { long t = _b; _b = _a % _b; _a = t; } return _a;`. -/
def ratio.gcd (_a _b : Int) : Int :=
  if _b ≠ 0 then ratio.gcd _b (_a.tmod _b) else _a
termination_by _b.natAbs
decreasing_by
  rename_i h
  cases _a <;> cases _b <;> simp_all [Int.tmod] <;> exact Nat.mod_lt _ (by omega)

/-- The conversion of a `long` argument to an `int` parameter: the value modulo `2 ^ 32`
in the range of `int`. -/
def long_to_int (x : Int) : Int :=
  (x + 2 ^ 31) % 2 ^ 32 - 2 ^ 31

/-- The C library function `int abs(int)`: the absolute value, undefined at `INT_MIN`.
It is the function the unqualified call `abs(...)` in `ratio.h` resolves to: the header
includes only `<exception>`, `<iostream>` and `<string>` and names no namespace, so the
overloads of `std::abs` for `long` are not candidates. -/
def abs_int (x : Int) : Option Int :=
  if x = -2 ^ 31 then none else some (x.natAbs : Int)

/-- The helper `reduce()`: throws on a zero denominator; otherwise
`long g = gcd(abs(m_num), abs(m_den));` with both members converted to `int` for `abs`,
then `m_num /= g; m_den /= g;`, undefined when `g` is 0, and the sign of the denominator
is moved to the numerator. -/
def ratio.reduce (r : ratio) : Outcome ratio :=
  if r.m_den = 0 then
    Outcome.raised (Exn.domain_error "Division by zero.") r
  else
    match abs_int (long_to_int r.m_num) with
    | none => Outcome.undefined
    | some a =>
      match abs_int (long_to_int r.m_den) with
      | none => Outcome.undefined
      | some b =>
        let g := ratio.gcd a b
        if g = 0 then
          Outcome.undefined
        else
          let r : ratio := { m_num := r.m_num.tdiv g, m_den := r.m_den.tdiv g }
          if r.m_den < 0 then
            Outcome.returned { m_num := r.m_num * -1, m_den := r.m_den * -1 }
          else
            Outcome.returned r

/-- The no-argument constructor `ratio() = default`: the members take their default
member initialisers `m_num{1}` and `m_den{1}`. -/
def ratio.ctor_default : ratio :=
  { m_num := 1, m_den := 1 }

/-- The regular constructor `ratio(long _n, long _d) : m_num{_n}, m_den{_d} { reduce(); }`. -/
def ratio.ctor (_n _d : Int) : Outcome ratio :=
  ratio.reduce { m_num := _n, m_den := _d }

/-- Unary `operator-`: `return ratio(-_a.m_num, _a.m_den);`. -/
def ratio.operator_neg (_a : ratio) : Outcome ratio :=
  ratio.ctor (-_a.m_num) _a.m_den

/-- The member `operator+=`, declared `noexcept`. -/
def ratio.operator_plus_assign (self _o : ratio) : Outcome ratio :=
  let n := self.m_num * _o.m_den + self.m_den * _o.m_num
  let d := self.m_den * _o.m_den
  Outcome.noexcept (ratio.reduce { m_num := n, m_den := d })

/-- The member `operator-=`, declared `noexcept`. -/
def ratio.operator_minus_assign (self _o : ratio) : Outcome ratio :=
  let n := self.m_num * _o.m_den - self.m_den * _o.m_num
  let d := self.m_den * _o.m_den
  Outcome.noexcept (ratio.reduce { m_num := n, m_den := d })

/-- The member `operator*=`, declared `noexcept`: `m_num *= _o.m_num; m_den *= _o.m_den; reduce();`. -/
def ratio.operator_times_assign (self _o : ratio) : Outcome ratio :=
  Outcome.noexcept
    (ratio.reduce { m_num := self.m_num * _o.m_num, m_den := self.m_den * _o.m_den })

/-- The member `operator/=` called with an argument `_o` that is another object than
`*this`: `m_num *= _o.m_den; m_den *= _o.m_num; reduce();`. -/
def ratio.operator_div_assign (self _o : ratio) : Outcome ratio :=
  ratio.reduce { m_num := self.m_num * _o.m_den, m_den := self.m_den * _o.m_num }

/-- The member `operator/=` called as `r /= r`, where `_o` is `*this`: the second
statement reads the numerator the first one has already multiplied. The other compound
assignments read both members of `_o` before they write, or write each member from the
same member of `_o`, so for them the aliased call is the call on two equal values. -/
def ratio.operator_div_assign_self (self : ratio) : Outcome ratio :=
  let m_num := self.m_num * self.m_den
  let m_den := self.m_den * m_num
  ratio.reduce { m_num := m_num, m_den := m_den }

/-- Binary `operator+(ratio _a, const ratio& _b) noexcept`: `_a += _b; return _a;` on the
by-value copy `_a`; the outcome carries the returned object. -/
def ratio.operator_plus (_a _b : ratio) : Outcome ratio :=
  Outcome.noexcept (_a.operator_plus_assign _b)

/-- Binary `operator-(ratio _a, const ratio& _b) noexcept`. -/
def ratio.operator_minus (_a _b : ratio) : Outcome ratio :=
  Outcome.noexcept (_a.operator_minus_assign _b)

/-- Binary `operator*(ratio _a, const ratio& _b) noexcept`. -/
def ratio.operator_times (_a _b : ratio) : Outcome ratio :=
  Outcome.noexcept (_a.operator_times_assign _b)

/-- Binary `operator/(ratio _a, const ratio& _b)`: `_a /= _b; return _a;`. -/
def ratio.operator_div (_a _b : ratio) : Outcome ratio :=
  _a.operator_div_assign _b

/-- The friend `operator==`. -/
def ratio.operator_eq (_a _b : ratio) : Bool :=
  decide (_a.m_num = _b.m_num) && decide (_a.m_den = _b.m_den)

/-- The friend `operator!=`. -/
def ratio.operator_ne (_a _b : ratio) : Bool :=
  !(ratio.operator_eq _a _b)

/-- The friend `operator<`. -/
def ratio.operator_lt (_a _b : ratio) : Bool :=
  decide (_a.m_num * _b.m_den < _a.m_den * _b.m_num)

/-- The friend `operator<=`. -/
def ratio.operator_le (_a _b : ratio) : Bool :=
  decide (_a.m_num * _b.m_den ≤ _a.m_den * _b.m_num)

/-- The friend `operator>`. -/
def ratio.operator_gt (_a _b : ratio) : Bool :=
  !(ratio.operator_le _a _b)

/-- The friend `operator>=`. -/
def ratio.operator_ge (_a _b : ratio) : Bool :=
  !(ratio.operator_lt _a _b)

/-- The rational number a ratio stands for, numerator over denominator. -/
def ratio.value (r : ratio) : ℚ :=
  (r.m_num : ℚ) / (r.m_den : ℚ)

/-- Lowest terms with a positive denominator. -/
def ratio.Normal (r : ratio) : Prop :=
  0 < r.m_den ∧ Int.gcd r.m_num r.m_den = 1

instance (r : ratio) : Decidable r.Normal := by
  unfold ratio.Normal
  infer_instance

/-- A ratio that the regular constructor can return. -/
def ratio.ConstructorBuilt (r : ratio) : Prop :=
  ∃ n d, ratio.ctor n d = Outcome.returned r

/-! ## Week06: the stream operators of `ratio`

Text is a list of characters. The stream and string operations the two operators call
belong to the C++ standard library; they are written down here from the standard:
decimal formatting of a `long` with a leading `-` for negative values, `atol`,
`std::string::find`, and extraction of a whitespace-delimited word. -/

/-- The character of a decimal digit. -/
def digit_char (d : Nat) : Char :=
  Char.ofNat (d + 48)

/-- Decimal digits of a natural number, most significant first. -/
def put_nat (n : Nat) : List Char :=
  if n < 10 then [digit_char n] else put_nat (n / 10) ++ [digit_char (n % 10)]
termination_by n
decreasing_by omega

/-- The text `os << n` writes for a `long`. -/
def put_long (n : Int) : List Char :=
  if n < 0 then '-' :: put_nat n.natAbs else put_nat n.natAbs

/-- The classification `isspace` of the C locale. -/
def is_space (c : Char) : Bool :=
  c = ' ' || c = '\t' || c = '\n' || c = '\x0b' || c = '\x0c' || c = '\r'

/-- The digit-reading part of `atol`: reads digits while there are any. -/
def atol_digits (acc : Nat) : List Char → Nat
  | [] => acc
  | c :: cs => if c.isDigit then atol_digits (acc * 10 + (c.toNat - 48)) cs else acc

/-- The function `atol`: skips leading whitespace, takes an optional sign, reads digits;
0 when there is no digit. -/
def atol (s : List Char) : Int :=
  match s.dropWhile is_space with
  | [] => 0
  | c :: cs =>
    if c = '-' then -(atol_digits 0 cs : Int)
    else if c = '+' then (atol_digits 0 cs : Int)
    else (atol_digits 0 (c :: cs) : Int)

/-- The member `std::string::find(char)`: the first position of the character, `none`
for `npos`. -/
def string_find (c : Char) : List Char → Option Nat
  | [] => none
  | x :: xs => if x = c then some 0 else (string_find c xs).map (· + 1)

/-- The extraction `is >> word` of a `std::string`: skips leading whitespace, then takes
characters up to the next whitespace or the end; returns the word and the rest of the
stream. -/
def istream_get_word (is : List Char) : List Char × List Char :=
  let is := is.dropWhile is_space
  (is.takeWhile (fun c => !is_space c), is.dropWhile (fun c => !is_space c))

/-- The friend `operator<<` of `ratio`: the numerator alone when the denominator is 1,
numerator, `/`, denominator otherwise, appended to the stream `_os`. -/
def ratio.operator_shl (_os : List Char) (_r : ratio) : List Char :=
  if _r.m_den = 1 then
    _os ++ put_long _r.m_num
  else
    _os ++ put_long _r.m_num ++ ['/'] ++ put_long _r.m_den

/-- The friend `operator>>` of `ratio`: reads a word, splits it at the first `/` and sets
both members with `atol`, without calling `reduce`. Returns the rest of the stream and
the new value of `_r`. -/
def ratio.operator_shr (_is : List Char) (_r : ratio) : List Char × ratio :=
  let (frac, _is) := istream_get_word _is
  match string_find '/' frac with
  | none => (_is, { _r with m_num := atol frac, m_den := 1 })
  | some pos =>
    (_is, { _r with m_num := atol (frac.take pos), m_den := atol (frac.drop (pos + 1)) })

/-! ## Week03: sequences of calls on the array -/

/-- The object state a call leaves behind, whether it returned or raised; none after
`std::terminate` or undefined behaviour. -/
def Outcome.state {σ : Type} : Outcome σ → Option σ
  | Outcome.returned s => some s
  | Outcome.raised _ s => some s
  | _ => none

/-- A call of a public mutating member of `modern_dyn_int_array`. -/
inductive modern_dyn_int_array.Call where
  | add (_i : Nat) (_e : Int)
  | remove (_i : Nat)
  deriving DecidableEq, Repr

/-- The outcome of one call. -/
def modern_dyn_int_array.call (s : modern_dyn_int_array) :
    modern_dyn_int_array.Call → Outcome modern_dyn_int_array
  | modern_dyn_int_array.Call.add _i _e => s.add _i _e
  | modern_dyn_int_array.Call.remove _i => s.remove _i

/-- The state after a sequence of calls made from state `s` by a client that catches
the exceptions and goes on. -/
def modern_dyn_int_array.run_calls (s : modern_dyn_int_array) :
    List modern_dyn_int_array.Call → Option modern_dyn_int_array
  | [] => some s
  | c :: cs =>
    match (s.call c).state with
    | none => none
    | some s => s.run_calls cs

/-- The state after the constructor and then a sequence of calls. -/
def modern_dyn_int_array.after_calls (cs : List modern_dyn_int_array.Call) :
    Option modern_dyn_int_array :=
  match modern_dyn_int_array.ctor.state with
  | none => none
  | some s => s.run_calls cs

/-- The states reachable from the constructor by `add` and `remove` calls, raising calls
included. -/
def modern_dyn_int_array.Reachable (s : modern_dyn_int_array) : Prop :=
  ∃ cs, modern_dyn_int_array.after_calls cs = some s

/-! ## Week05: the stack of data transforms

A `std::vector<int>` is a list; its unchecked `operator[]` is defined only inside the
vector. `std::cout` is the list of the lines written so far. -/

/-- An object of the `DataTransform` hierarchy: the base member `m_name` and the members
of the derived class. `m_o` of `SubstituteTransform` has no initialiser: it holds no
value until `forward` assigns it. -/
inductive DataTransform where
  | ReverseTransform (m_name : String)
  | SubstituteTransform (m_name : String) (m_i : Nat) (m_v : Int) (m_o : Option Int)
  deriving DecidableEq, Repr

/-- The base member `m_name`. -/
def DataTransform.m_name : DataTransform → String
  | DataTransform.ReverseTransform m_name => m_name
  | DataTransform.SubstituteTransform m_name _ _ _ => m_name

/-- The constructor `ReverseTransform() : DataTransform("Reverse")`. -/
def ReverseTransform.ctor : DataTransform :=
  DataTransform.ReverseTransform "Reverse"

/-- The constructor `SubstituteTransform(_i, _v) : DataTransform("Substitute"), m_i{_i},
m_v{_v}`. -/
def SubstituteTransform.ctor (_i : Nat) (_v : Int) : DataTransform :=
  DataTransform.SubstituteTransform "Substitute" _i _v none

/-- The virtual `forward`: `std::reverse` for `ReverseTransform`; `m_o = _v[m_i];
_v[m_i] = m_v;` for `SubstituteTransform`. Returns the object and the data. -/
def DataTransform.forward (self : DataTransform) (_v : List Int) :
    Option (DataTransform × List Int) :=
  match self with
  | DataTransform.ReverseTransform m_name =>
    some (DataTransform.ReverseTransform m_name, _v.reverse)
  | DataTransform.SubstituteTransform m_name m_i m_v _ =>
    match _v[m_i]? with
    | none => none
    | some o => some (DataTransform.SubstituteTransform m_name m_i m_v (some o), _v.set m_i m_v)

/-- The virtual `backward`: `std::reverse` for `ReverseTransform`; `_v[m_i] = m_o;` for
`SubstituteTransform`, undefined when `m_o` was never assigned or `m_i` is outside the
vector. -/
def DataTransform.backward (self : DataTransform) (_v : List Int) :
    Option (DataTransform × List Int) :=
  match self with
  | DataTransform.ReverseTransform m_name =>
    some (DataTransform.ReverseTransform m_name, _v.reverse)
  | DataTransform.SubstituteTransform m_name m_i m_v m_o =>
    match m_o with
    | none => none
    | some o =>
      if m_i < _v.length then
        some (DataTransform.SubstituteTransform m_name m_i m_v (some o), _v.set m_i o)
      else none

/-- The non-virtual `apply`: prints `Applying: ` and the name, then calls `forward`. -/
def DataTransform.apply (self : DataTransform) (cout : List String) (_v : List Int) :
    Option (List String × DataTransform × List Int) :=
  match self.forward _v with
  | none => none
  | some (t, v) => some (cout ++ ["Applying: " ++ self.m_name], t, v)

/-- The non-virtual `undo`: prints `Undoing: ` and the name, then calls `backward`. -/
def DataTransform.undo (self : DataTransform) (cout : List String) (_v : List Int) :
    Option (List String × DataTransform × List Int) :=
  match self.backward _v with
  | none => none
  | some (t, v) => some (cout ++ ["Undoing: " ++ self.m_name], t, v)

/-- The loop `for(auto& t : transforms) t->apply(data);` of `main`. -/
def apply_loop : List DataTransform → List String → List Int →
    Option (List String × List DataTransform × List Int)
  | [], cout, data => some (cout, [], data)
  | t :: transforms, cout, data =>
    match t.apply cout data with
    | none => none
    | some (cout, t, data) =>
      match apply_loop transforms cout data with
      | none => none
      | some (cout, transforms, data) => some (cout, t :: transforms, data)

/-- The loop `for(auto trit = transforms.rbegin(); trit != transforms.rend(); ++trit)
(*trit)->undo(data);` of `main`: the last transform is undone first. -/
def undo_loop : List DataTransform → List String → List Int →
    Option (List String × List DataTransform × List Int)
  | [], cout, data => some (cout, [], data)
  | t :: transforms, cout, data =>
    match undo_loop transforms cout data with
    | none => none
    | some (cout, transforms, data) =>
      match t.undo cout data with
      | none => none
      | some (cout, t, data) => some (cout, t :: transforms, data)

/-- The index of a `SubstituteTransform` lies inside a vector of `n` elements. -/
def DataTransform.InRange (n : Nat) : DataTransform → Prop
  | DataTransform.ReverseTransform _ => True
  | DataTransform.SubstituteTransform _ m_i _ _ => m_i < n

instance (n : Nat) (t : DataTransform) : Decidable (t.InRange n) := by
  cases t <;> unfold DataTransform.InRange <;> infer_instance

/-! ## Week11 and Lecture11: variadic functions

The arguments behind `...` are a list of promoted values, read in order by `va_arg`;
reading past the end or with another type is undefined. Output streams are lists of
the lines written. -/

/-- A variadic argument after the default argument promotions. -/
inductive VaArg where
  | c_str (s : String)
  | int (n : Int)
  | long_long (n : Int)
  deriving DecidableEq, Repr

/-- The macro `va_arg(args, long long)`. -/
def va_arg_long_long : List VaArg → Option (Int × List VaArg)
  | VaArg.long_long n :: args => some (n, args)
  | _ => none

/-- The loop of `pow_two`, entered with counter `i` and accumulator `x`:
`for(; i < _n; ++i) x *= 2;` in 64-bit `size_t` arithmetic. -/
def Week08.pow_two_loop (_n : Nat) (i : Nat) (x : Nat) : Nat :=
  if i < _n then Week08.pow_two_loop _n (i + 1) (x * 2 % 2 ^ 64) else x
termination_by _n - i

/-- The function `pow_two(_n)`: `size_t x = 1;`, the loop, `return x;`. -/
def Week08.pow_two (_n : Nat) : Nat :=
  Week08.pow_two_loop _n 0 1

/-! ## Lecture11: `add_c` and `add_cpp` -/

/-- The overloads `add_cpp()` and `add_cpp(long long _t, Args&&... _args)`:
`return 0;` and `return _t + add_cpp(_args...);`. -/
def add_cpp : List Int → Int
  | [] => 0
  | _t :: _args => _t + add_cpp _args

/-- The conversion of a `long long` value to `int`: the value modulo `2 ^ 32` in the
range of `int`. -/
def long_long_to_int (x : Int) : Int :=
  (x + 2 ^ 31) % 2 ^ 32 - 2 ^ 31

/-- The loop of `add_c`, entered with counter `i` and the `int` accumulator `sum`:
`for(; i < _count; ++i) sum += va_arg(args, long long);`. The addition is done in
`long long` and the result converted back to `int`. -/
def add_c_loop (_count : Nat) (i : Nat) (args : List VaArg) (sum : Int) : Option Int :=
  if i < _count then
    match va_arg_long_long args with
    | none => none
    | some (a, args) => add_c_loop _count (i + 1) args (long_long_to_int (sum + a))
  else some sum
termination_by _count - i

/-- The function `add_c(_count, ...)`: `int sum = 0;`, the loop, `return sum;`. -/
def add_c (_count : Nat) (args : List VaArg) : Option Int :=
  add_c_loop _count 0 args 0

/-! ## Lecture08: the three Fibonacci functions

All three compute in 64-bit `size_t` arithmetic: every addition is taken modulo
`2 ^ 64`. -/

/-- The function `fibonacci11(n)`:
`return n == 0 ? 0 : (n <= 2 ? 1 : fibonacci11(n - 1) + fibonacci11(n - 2));`. -/
def fibonacci11 (n : Nat) : Nat :=
  if h0 : n = 0 then 0
  else if h2 : n ≤ 2 then 1
  else (fibonacci11 (n - 1) + fibonacci11 (n - 2)) % 2 ^ 64
termination_by n
decreasing_by all_goals omega

/-- The loop of `fibonacci03`, entered with counter `i` and the locals `f2`, `f1`, `f`:
`for(; i < n; ++i) { f2 = f1; f1 = f; f = f1 + f2; }`, then `return f;`. -/
def fibonacci03_loop (n : Nat) (i : Nat) (f2 f1 f : Nat) : Nat :=
  if i < n then
    let f2 := f1
    let f1 := f
    let f := (f1 + f2) % 2 ^ 64
    fibonacci03_loop n (i + 1) f2 f1 f
  else f
termination_by n - i

/-- The function `fibonacci03(n)`: `if(n == 0) return 0; if(n <= 2) return 0;`, then the
locals `f2 = 0`, `f1 = 1`, `f = 1` and the loop from `i = 2`. -/
def fibonacci03 (n : Nat) : Nat :=
  if n = 0 then 0
  else if n ≤ 2 then 0
  else fibonacci03_loop n 2 0 1 1

/-- The loop of `fibonacci14`, the same statements as the loop of `fibonacci03`. -/
def fibonacci14_loop (n : Nat) (i : Nat) (f2 f1 f : Nat) : Nat :=
  if i < n then
    let f2 := f1
    let f1 := f
    let f := (f1 + f2) % 2 ^ 64
    fibonacci14_loop n (i + 1) f2 f1 f
  else f
termination_by n - i

/-- The function `fibonacci14(n)`, the same statements as `fibonacci03`. -/
def fibonacci14 (n : Nat) : Nat :=
  if n = 0 then 0
  else if n ≤ 2 then 0
  else fibonacci14_loop n 2 0 1 1

/-! ## Week07: `logged_map`

The map template `M<K, V>` is a list of key and value pairs with the three standard
operations the class calls. The log stream is taken to be open; it is the list of the
lines written to it. -/

/-- The member `emplace` of the map: inserts the pair unless the key is present. -/
def map_emplace {K V : Type} [DecidableEq K] (m : List (K × V)) (k : K) (v : V) :
    List (K × V) :=
  if m.any (fun p => decide (p.1 = k)) then m else m ++ [(k, v)]

/-- The member `operator[]` of the map: inserts a value-initialised element when the key
is absent; returns the map and the mapped value. -/
def map_subscript {K V : Type} [DecidableEq K] [Inhabited V] (m : List (K × V)) (k : K) :
    List (K × V) × V :=
  match m.find? (fun p => decide (p.1 = k)) with
  | some p => (m, p.2)
  | none => (m ++ [(k, default)], default)

/-- The member `erase` of the map: removes the element with the key, if any. -/
def map_erase {K V : Type} [DecidableEq K] (m : List (K × V)) (k : K) : List (K × V) :=
  m.filter (fun p => !decide (p.1 = k))

/-- The data members of `logged_map<K, V, M>`. -/
structure logged_map (K V : Type) where
  m_map : List (K × V)
  m_log : List String

/-- The constructor `logged_map(_filename) : m_log(_filename)`: an empty map and a
freshly opened, empty log. -/
def logged_map.ctor (K V : Type) : logged_map K V :=
  { m_map := [], m_log := [] }

/-- The member `insert(_k, _v)`: `m_log << "Insert." << std::endl;` then `emplace`. -/
def logged_map.insert {K V : Type} [DecidableEq K] (self : logged_map K V) (_k : K)
    (_v : V) : logged_map K V :=
  let m_log := self.m_log ++ ["Insert."]
  { m_map := map_emplace self.m_map _k _v, m_log := m_log }

/-- The member `get(_k)`: `m_log << "Lookup." << std::endl;` then `return m_map[_k];`.
Returns the object and the value referred to. -/
def logged_map.get {K V : Type} [DecidableEq K] [Inhabited V] (self : logged_map K V)
    (_k : K) : logged_map K V × V :=
  let m_log := self.m_log ++ ["Lookup."]
  let r := map_subscript self.m_map _k
  ({ m_map := r.1, m_log := m_log }, r.2)

/-- The member `remove(_k)`: `m_log << "Remove." << std::endl;` then `erase`. -/
def logged_map.remove {K V : Type} [DecidableEq K] (self : logged_map K V) (_k : K) :
    logged_map K V :=
  let m_log := self.m_log ++ ["Remove."]
  { m_map := map_erase self.m_map _k, m_log := m_log }

/-- A call of a public member of `logged_map`. -/
inductive logged_map.Call (K V : Type) where
  | insert (_k : K) (_v : V)
  | get (_k : K)
  | remove (_k : K)

/-- The object after one call. -/
def logged_map.call {K V : Type} [DecidableEq K] [Inhabited V] (self : logged_map K V) :
    logged_map.Call K V → logged_map K V
  | logged_map.Call.insert _k _v => self.insert _k _v
  | logged_map.Call.get _k => (self.get _k).1
  | logged_map.Call.remove _k => self.remove _k

/-- The object after a sequence of calls, in order. -/
def logged_map.run_calls {K V : Type} [DecidableEq K] [Inhabited V]
    (self : logged_map K V) : List (logged_map.Call K V) → logged_map K V
  | [] => self
  | c :: cs => (self.call c).run_calls cs

/-- The log line that belongs to a call. -/
def logged_map.Call.log_line {K V : Type} : logged_map.Call K V → String
  | logged_map.Call.insert _ _ => "Insert."
  | logged_map.Call.get _ => "Lookup."
  | logged_map.Call.remove _ => "Remove."

/-! ## Week03: the modern test of `main`

The three loops of the test in `test.cpp`, with the bound 15 of the two `add` loops as
the parameter `n`. An exception leaves the loop it is thrown in. The values `i` and `-i`
passed for the `int` parameter `_e` are the integers `i` and `-i`. -/

/-- The loop `for(size_t i = 0; i < n; ++i) mdia.add(i, i);`, entered with counter `i`. -/
def test_fill_loop (n : Nat) (i : Nat) (mdia : modern_dyn_int_array) :
    Outcome modern_dyn_int_array :=
  if i < n then
    match mdia.add i (i : Int) with
    | Outcome.returned mdia => test_fill_loop n (i + 1) mdia
    | o => o
  else Outcome.returned mdia
termination_by n - i

/-- The loop `for(size_t i = 0; i < n; ++i) mdia.add(i*2, -i);`, entered with counter
`i`. -/
def test_interleave_loop (n : Nat) (i : Nat) (mdia : modern_dyn_int_array) :
    Outcome modern_dyn_int_array :=
  if i < n then
    match mdia.add (i * 2) (-(i : Int)) with
    | Outcome.returned mdia => test_interleave_loop n (i + 1) mdia
    | o => o
  else Outcome.returned mdia
termination_by n - i

/-- The loop `for(int i = ...; i >= 0; i -= 2) mdia.remove(i);`, entered with the `int`
counter `i`. -/
def test_remove_loop (i : Int) (mdia : modern_dyn_int_array) :
    Outcome modern_dyn_int_array :=
  if 0 ≤ i then
    match mdia.remove i.toNat with
    | Outcome.returned mdia => test_remove_loop (i - 2) mdia
    | o => o
  else Outcome.returned mdia
termination_by (i + 2).toNat
decreasing_by omega

/-- The initial value of the counter of the third loop, `int i = mdia.size() - 1`. -/
def test_remove_start (mdia : modern_dyn_int_array) : Int :=
  (mdia.size : Int) - 1

/-- The list `i, i + 1, ...` of `c` consecutive integers. -/
def ups (i : Nat) : Nat → List Int
  | 0 => []
  | c + 1 => (i : Int) :: ups (i + 1) c

/-- The list `-i, -(i + 1), ...` of `c` negated consecutive integers. -/
def downs (i : Nat) : Nat → List Int
  | 0 => []
  | c + 1 => -(i : Int) :: downs (i + 1) c

/-- The list `-0, 0, -1, 1, ..., -(m - 1), m - 1`. -/
def interleaved : Nat → List Int
  | 0 => []
  | m + 1 => interleaved m ++ [-(m : Int), (m : Int)]

/-! # Theorems -/

/-! ### Loop lemmas for the array -/

theorem modern_dyn_int_array.load_of_lt (arr : List Int) (i : Nat) (h : i < arr.length) :
    modern_dyn_int_array.load arr i = some (arr.get ⟨i, h⟩) := by
  simp [modern_dyn_int_array.load, List.getElem?_eq_getElem h]

theorem modern_dyn_int_array.store_of_lt (arr : List Int) (i : Nat) (v : Int)
    (h : i < arr.length) :
    modern_dyn_int_array.store arr i v = some (arr.set i v) := by
  simp [modern_dyn_int_array.store, h]

/-- The shifting loop of `add` stays inside the buffer and moves the slots `(i, j]` one
place up. -/
theorem modern_dyn_int_array.add_loop_spec (i : Nat) :
    ∀ (j : Nat) (arr : List Int), j < arr.length →
      ∃ r, modern_dyn_int_array.add_loop i j arr = some r ∧ r.length = arr.length ∧
        ∀ k, r[k]? = if i < k ∧ k ≤ j then arr[k - 1]? else arr[k]? := by
  intro j
  induction j with
  | zero =>
    intro arr _
    refine ⟨arr, rfl, rfl, fun k => ?_⟩
    have hk : ¬ (i < k ∧ k ≤ 0) := by omega
    rw [if_neg hk]
  | succ j ih =>
    intro arr hj
    by_cases hij : j + 1 > i
    · have hj' : j < arr.length := by omega
      obtain ⟨r, hr, hlen, hk⟩ := ih (arr.set (j + 1) (arr.get ⟨j, hj'⟩)) (by simpa using hj')
      refine ⟨r, ?_, by simpa using hlen, fun k => ?_⟩
      · simp only [modern_dyn_int_array.add_loop, hij, if_true,
          modern_dyn_int_array.load_of_lt arr j hj',
          modern_dyn_int_array.store_of_lt arr (j + 1) _ hj, hr]
      · rw [hk k]
        simp only [List.getElem?_set]
        by_cases h1 : i < k ∧ k ≤ j
        · have h2 : i < k ∧ k ≤ j + 1 := by omega
          have h3 : j + 1 ≠ k - 1 := by omega
          simp [h1, h2, h3]
        · by_cases h4 : k = j + 1
          · subst h4
            have h5 : i < j + 1 ∧ j + 1 ≤ j + 1 := by omega
            simp [h1, h5, hj, List.getElem?_eq_getElem hj']
          · have h6 : ¬ (i < k ∧ k ≤ j + 1) := by omega
            have h7 : j + 1 ≠ k := by omega
            simp [h1, h6, h7]
    · refine ⟨arr, ?_, rfl, fun k => ?_⟩
      · simp only [modern_dyn_int_array.add_loop, hij, if_false]
      · have hk : ¬ (i < k ∧ k ≤ j + 1) := by omega
        simp [hk]

/-- The copying loop of `resize` stays inside both buffers and fills the slots
`[i, _cap)` of the new one. -/
theorem modern_dyn_int_array.resize_loop_spec (m_cap : Nat) (m_arr : List Int) (_cap : Nat)
    (hold : m_arr.length = m_cap) :
    ∀ (n i : Nat) (new_arr : List Int), n = _cap - i → new_arr.length = _cap →
      ∃ r, modern_dyn_int_array.resize_loop m_cap m_arr _cap i new_arr = some r ∧
        r.length = _cap ∧
        ∀ k, r[k]? = if i ≤ k ∧ k < _cap then (if k < m_cap then m_arr[k]? else some 0)
          else new_arr[k]? := by
  intro n
  induction n with
  | zero =>
    intro i new_arr hn hlen
    have hi : ¬ i < _cap := by omega
    refine ⟨new_arr, ?_, hlen, fun k => ?_⟩
    · rw [modern_dyn_int_array.resize_loop]; simp only [hi, if_false]
    · have hk : ¬ (i ≤ k ∧ k < _cap) := by omega
      simp [hk]
  | succ n ih =>
    intro i new_arr hn hlen
    have hi : i < _cap := by omega
    have hin : i < new_arr.length := by omega
    by_cases him : i < m_cap
    · have hio : i < m_arr.length := by omega
      obtain ⟨r, hr, hrl, hk⟩ := ih (i + 1) (new_arr.set i (m_arr.get ⟨i, hio⟩)) (by omega)
        (by simpa using hlen)
      refine ⟨r, ?_, hrl, fun k => ?_⟩
      · rw [modern_dyn_int_array.resize_loop]
        simp only [hi, him, if_true, modern_dyn_int_array.load_of_lt m_arr i hio,
          modern_dyn_int_array.store_of_lt new_arr i _ hin, hr]
      · rw [hk k]
        simp only [List.getElem?_set]
        by_cases h1 : i + 1 ≤ k ∧ k < _cap
        · have h2 : i ≤ k ∧ k < _cap := by omega
          simp [h1, h2]
        · by_cases h3 : k = i
          · subst h3
            have h4 : k ≤ k ∧ k < _cap := by omega
            simp [h1, h4, him, hin, List.getElem?_eq_getElem hio]
          · have h5 : ¬ (i ≤ k ∧ k < _cap) := by omega
            have h6 : i ≠ k := by omega
            simp [h1, h5, h6]
    · obtain ⟨r, hr, hrl, hk⟩ := ih (i + 1) (new_arr.set i 0) (by omega) (by simpa using hlen)
      refine ⟨r, ?_, hrl, fun k => ?_⟩
      · rw [modern_dyn_int_array.resize_loop]
        simp only [hi, him, if_true, if_false,
          modern_dyn_int_array.store_of_lt new_arr i _ hin, hr]
      · rw [hk k]
        simp only [List.getElem?_set]
        by_cases h1 : i + 1 ≤ k ∧ k < _cap
        · have h2 : i ≤ k ∧ k < _cap := by omega
          simp [h1, h2]
        · by_cases h3 : k = i
          · subst h3
            have h4 : k ≤ k ∧ k < _cap := by omega
            simp [h1, h4, him, hin]
          · have h5 : ¬ (i ≤ k ∧ k < _cap) := by omega
            have h6 : i ≠ k := by omega
            simp [h1, h5, h6]

/-- The shifting loop of `remove` stays inside the buffer and moves the slots
`(j, m_size)` one place down. -/
theorem modern_dyn_int_array.remove_loop_spec (m_size : Nat) :
    ∀ (n j : Nat) (arr : List Int), n = m_size - 1 - j → m_size ≤ arr.length →
      ∃ r, modern_dyn_int_array.remove_loop m_size j arr = some r ∧ r.length = arr.length ∧
        ∀ k, r[k]? = if j ≤ k ∧ k < m_size - 1 then arr[k + 1]? else arr[k]? := by
  intro n
  induction n with
  | zero =>
    intro j arr hn _
    have hj : ¬ j < m_size - 1 := by omega
    refine ⟨arr, ?_, rfl, fun k => ?_⟩
    · rw [modern_dyn_int_array.remove_loop]; simp only [hj, if_false]
    · have hk : ¬ (j ≤ k ∧ k < m_size - 1) := by omega
      simp [hk]
  | succ n ih =>
    intro j arr hn hlen
    have hj : j < m_size - 1 := by omega
    have hj1 : j + 1 < arr.length := by omega
    have hj0 : j < arr.length := by omega
    obtain ⟨r, hr, hrl, hk⟩ := ih (j + 1) (arr.set j (arr.get ⟨j + 1, hj1⟩)) (by omega)
      (by simpa using hlen)
    refine ⟨r, ?_, by simpa using hrl, fun k => ?_⟩
    · rw [modern_dyn_int_array.remove_loop]
      simp only [hj, if_true, modern_dyn_int_array.load_of_lt arr (j + 1) hj1,
        modern_dyn_int_array.store_of_lt arr j _ hj0, hr]
    · rw [hk k]
      simp only [List.getElem?_set]
      by_cases h1 : j + 1 ≤ k ∧ k < m_size - 1
      · have h2 : j ≤ k ∧ k < m_size - 1 := by omega
        have h3 : j ≠ k + 1 := by omega
        simp [h1, h2, h3]
      · by_cases h4 : k = j
        · subst h4
          have h5 : k ≤ k ∧ k < m_size - 1 := by omega
          simp [h1, h5, hj0, List.getElem?_eq_getElem hj1]
        · have h6 : ¬ (j ≤ k ∧ k < m_size - 1) := by omega
          have h7 : j ≠ k := by omega
          simp [h1, h6, h7]

/-! ### State-level descriptions of `resize`, `add` and `remove` -/

/-- On a buffer of `m_cap` elements `resize` is defined; the new buffer has `_cap`
elements: the old ones below `m_cap`, zeros above. -/
theorem modern_dyn_int_array.resize_spec (s : modern_dyn_int_array) (_cap : Nat)
    (hlen : s.m_arr.length = s.m_cap) :
    ∃ r, s.resize _cap = some { m_cap := _cap, m_size := s.m_size, m_arr := r } ∧
      r.length = _cap ∧
      ∀ k, r[k]? = if k < _cap then (if k < s.m_cap then s.m_arr[k]? else some 0)
        else none := by
  obtain ⟨r, hr, hrl, hk⟩ := modern_dyn_int_array.resize_loop_spec s.m_cap s.m_arr _cap hlen
    (_cap - 0) 0 (List.replicate _cap 0) rfl (by simp)
  refine ⟨r, ?_, hrl, fun k => ?_⟩
  · simp only [modern_dyn_int_array.resize, hr]
  · rw [hk k]
    by_cases h : k < _cap
    · simp [h]
    · simp [h, List.getElem?_replicate]

/-- The shift-and-write part of `add` on a state with a free slot. -/
theorem modern_dyn_int_array.add_shift_spec (s : modern_dyn_int_array) (i : Nat) (e : Int)
    (hlen : s.m_arr.length = s.m_cap) (hfree : s.m_size < s.m_cap) (hi : i ≤ s.m_size) :
    ∃ arr,
      (match modern_dyn_int_array.add_loop i s.m_size s.m_arr with
        | none => none
        | some m_arr =>
          match modern_dyn_int_array.store m_arr i e with
          | none => none
          | some m_arr => some { s with m_arr := m_arr, m_size := s.m_size + 1 })
        = some { m_cap := s.m_cap, m_size := s.m_size + 1, m_arr := arr } ∧
      arr.length = s.m_cap ∧
      ∀ k, arr[k]? = if k = i then some e
        else if i < k ∧ k ≤ s.m_size then s.m_arr[k - 1]? else s.m_arr[k]? := by
  obtain ⟨r, hr, hrl, hk⟩ := modern_dyn_int_array.add_loop_spec i s.m_size s.m_arr (by omega)
  have hir : i < r.length := by omega
  refine ⟨r.set i e, ?_, by simp [hrl, hlen], fun k => ?_⟩
  · simp only [hr, modern_dyn_int_array.store_of_lt r i e hir]
  · simp only [List.getElem?_set, hk k]
    by_cases h : k = i
    · subst h
      simp [hir]
    · have h' : i ≠ k := fun h'' => h h''.symm
      simp [h, h']

/-- What `add` does on a well-formed state with a valid index: the capacity is
doubled exactly when the array was full, the size grows by one, and the buffer is
described slot by slot. -/
theorem modern_dyn_int_array.add_spec (s : modern_dyn_int_array) (i : Nat) (e : Int)
    (hwf : s.WellFormed) (hi : i ≤ s.m_size) :
    ∃ arr,
      s.add i e = Outcome.returned
        { m_cap := if s.m_size = s.m_cap then 2 * s.m_cap else s.m_cap,
          m_size := s.m_size + 1, m_arr := arr } ∧
      arr.length = (if s.m_size = s.m_cap then 2 * s.m_cap else s.m_cap) ∧
      ∀ k, arr[k]? = if k = i then some e
        else if i < k ∧ k ≤ s.m_size then s.m_arr[k - 1]?
        else if k < s.m_cap then s.m_arr[k]?
        else if k < (if s.m_size = s.m_cap then 2 * s.m_cap else s.m_cap) then some 0
        else none := by
  obtain ⟨hlen, hsz, hpos⟩ := hwf
  have hguard : i < s.m_size + 1 := by omega
  have hadd : s.add i e = Outcome.ofDefined (s.add_block i e) := by
    simp only [modern_dyn_int_array.add, hguard, if_true]
  by_cases hfull : s.m_size = s.m_cap
  · obtain ⟨r, hr, hrl, hrk⟩ := modern_dyn_int_array.resize_spec s (2 * s.m_cap) hlen
    obtain ⟨arr, ha, hal, hak⟩ := modern_dyn_int_array.add_shift_spec
      { m_cap := 2 * s.m_cap, m_size := s.m_size, m_arr := r } i e hrl
      (show s.m_size < 2 * s.m_cap by omega) hi
    refine ⟨arr, ?_, by simpa [hfull] using hal, fun k => ?_⟩
    · rw [hadd]
      simp only [modern_dyn_int_array.add_block, hfull, if_true, hr]
      simp only [hfull] at ha
      simp only [ha, Outcome.ofDefined]
    · rw [hak k]
      simp only [hrk, hfull, if_true]
      by_cases h1 : k = i
      · simp [h1]
      · by_cases h2 : i < k ∧ k ≤ s.m_size
        · have h3 : k - 1 < 2 * s.m_cap := by omega
          have h4 : k - 1 < s.m_cap := by omega
          have h5 : i < k ∧ k ≤ s.m_cap := by omega
          simp [h1, h3, h4, h5]
        · have h5 : ¬ (i < k ∧ k ≤ s.m_cap) := by omega
          by_cases h6 : k < s.m_cap
          · have h7 : k < 2 * s.m_cap := by omega
            simp [h1, h5, h6, h7]
          · simp [h1, h5, h6]
  · obtain ⟨arr, ha, hal, hak⟩ := modern_dyn_int_array.add_shift_spec s i e hlen
      (by omega) hi
    refine ⟨arr, ?_, by simpa [hfull] using hal, fun k => ?_⟩
    · rw [hadd]
      simp only [modern_dyn_int_array.add_block, hfull, if_false, ha, Outcome.ofDefined]
    · rw [hak k]
      simp only [hfull, if_false]
      by_cases h1 : k = i
      · simp [h1]
      · by_cases h2 : i < k ∧ k ≤ s.m_size
        · simp [h1, h2]
        · by_cases h6 : k < s.m_cap
          · simp [h1, h2, h6]
          · have h7 : s.m_arr[k]? = none := List.getElem?_eq_none (by omega)
            simp [h1, h2, h6, h7]

/-- What `remove` does on a well-formed state with a valid index: the capacity is
kept, the size shrinks by one, and the buffer is described slot by slot. -/
theorem modern_dyn_int_array.remove_spec (s : modern_dyn_int_array) (i : Nat)
    (hwf : s.WellFormed) (hi : i < s.m_size) :
    ∃ arr,
      s.remove i = Outcome.returned
        { m_cap := s.m_cap, m_size := s.m_size - 1, m_arr := arr } ∧
      arr.length = s.m_cap ∧
      ∀ k, arr[k]? = if k = s.m_size - 1 then some 0
        else if i ≤ k ∧ k < s.m_size - 1 then s.m_arr[k + 1]? else s.m_arr[k]? := by
  obtain ⟨hlen, hsz, hpos⟩ := hwf
  obtain ⟨r, hr, hrl, hk⟩ := modern_dyn_int_array.remove_loop_spec s.m_size
    (s.m_size - 1 - i) i s.m_arr rfl (by omega)
  have hlast : s.m_size - 1 < r.length := by omega
  refine ⟨r.set (s.m_size - 1) 0, ?_, by simp [hrl, hlen], fun k => ?_⟩
  · simp only [modern_dyn_int_array.remove, hi, if_true, modern_dyn_int_array.remove_block,
      hr, modern_dyn_int_array.store_of_lt r _ 0 hlast, Outcome.ofDefined]
  · simp only [List.getElem?_set, hk k]
    by_cases h : k = s.m_size - 1
    · subst h
      simp [hlast]
    · have h' : s.m_size - 1 ≠ k := fun h'' => h h''.symm
      simp [h, h']

/-- The constructor returns the empty array of capacity 10, ten zeros in the buffer. -/
theorem modern_dyn_int_array.ctor_eq :
    modern_dyn_int_array.ctor =
      Outcome.returned { m_cap := 10, m_size := 0, m_arr := List.replicate 10 0 } := by
  simp [modern_dyn_int_array.ctor, modern_dyn_int_array.resize,
    modern_dyn_int_array.resize_loop, modern_dyn_int_array.store, Outcome.ofDefined]

/-- The freshly constructed array satisfies the representation invariant. -/
theorem modern_dyn_int_array.ctor_wellFormed :
    (modern_dyn_int_array.mk 10 0 (List.replicate 10 0)).WellFormed := by
  decide

/-- The call `add` with a valid index keeps the representation invariant. -/
theorem modern_dyn_int_array.add_wellFormed (s s' : modern_dyn_int_array) (i : Nat) (e : Int)
    (hwf : s.WellFormed) (hi : i ≤ s.m_size) (h : s.add i e = Outcome.returned s') :
    s'.WellFormed := by
  obtain ⟨arr, ha, hal, -⟩ := modern_dyn_int_array.add_spec s i e hwf hi
  obtain ⟨hlen, hsz, hpos⟩ := hwf
  rw [ha] at h
  injection h with h
  subst h
  refine ⟨hal, ?_, ?_⟩ <;> dsimp only <;> split_ifs <;> omega

/-- The call `remove` with a valid index keeps the representation invariant. -/
theorem modern_dyn_int_array.remove_wellFormed (s s' : modern_dyn_int_array) (i : Nat)
    (hwf : s.WellFormed) (hi : i < s.m_size) (h : s.remove i = Outcome.returned s') :
    s'.WellFormed := by
  obtain ⟨arr, ha, hal, -⟩ := modern_dyn_int_array.remove_spec s i hwf hi
  obtain ⟨hlen, hsz, hpos⟩ := hwf
  rw [ha] at h
  injection h with h
  subst h
  exact ⟨hal, by dsimp only; omega, hpos⟩

/-! ### The claims about the array -/

/-- C1: `add` inserts by shifting. On every well-formed array state, for every index
`i <= size` and value `e`, `add(i, e)` returns normally; afterwards the size is
`size + 1`, element `i` is `e`, every element below `i` is unchanged, every element at
`j` with `i < j <= size` is the old element at `j - 1`, and the logical contents are
`take i ++ [e] ++ drop i` of the old contents. The statement covers the full array
(`m_size = m_cap`, which resizes) and the array with a free slot alike. -/
theorem modern_dyn_int_array.add_inserts_by_shifting (s : modern_dyn_int_array) (i : Nat)
    (e : Int) (hwf : s.WellFormed) (hi : i ≤ s.size) :
    ∃ s', s.add i e = Outcome.returned s' ∧
      s'.size = s.size + 1 ∧
      s'.subscript i = some e ∧
      (∀ j, j < i → s'.subscript j = s.subscript j) ∧
      (∀ j, i < j → j ≤ s.size → s'.subscript j = s.subscript (j - 1)) ∧
      s'.contents = s.contents.take i ++ e :: s.contents.drop i := by
  obtain ⟨arr, ha, hal, hak⟩ := modern_dyn_int_array.add_spec s i e hwf hi
  obtain ⟨hlen, hsz, hpos⟩ := hwf
  simp only [modern_dyn_int_array.size] at hi ⊢
  refine ⟨_, ha, rfl, ?_, ?_, ?_, ?_⟩
  · simp [modern_dyn_int_array.subscript, modern_dyn_int_array.load, hak]
  · intro j hj
    have h1 : j ≠ i := by omega
    have h2 : ¬ (i < j ∧ j ≤ s.m_size) := by omega
    have h3 : j < s.m_cap := by omega
    simp [modern_dyn_int_array.subscript, modern_dyn_int_array.load, hak, h1, h2, h3]
  · intro j hij hj
    have h1 : j ≠ i := by omega
    have h2 : i < j ∧ j ≤ s.m_size := ⟨hij, hj⟩
    simp [modern_dyn_int_array.subscript, modern_dyn_int_array.load, hak, h1, h2]
  · apply List.ext_getElem?
    intro k
    simp only [modern_dyn_int_array.contents, List.getElem?_take, List.getElem?_append,
      List.length_take, List.getElem?_cons, List.getElem?_drop, hak k]
    have hmin : min i (min s.m_size s.m_arr.length) = i := by omega
    rw [hmin]
    by_cases h1 : k = i
    · subst h1
      have h0 : k < s.m_size + 1 := by omega
      simp [h0]
    · by_cases h2 : k < i
      · have h3 : k < s.m_size + 1 := by omega
        have h4 : ¬ (i < k ∧ k ≤ s.m_size) := by omega
        have h5 : k < s.m_cap := by omega
        have h6 : k < s.m_size := by omega
        simp [h1, h2, h3, h4, h5, h6]
      · have h3 : k - i ≠ 0 := by omega
        have h7 : i + (k - i - 1) = k - 1 := by omega
        by_cases h4 : k ≤ s.m_size
        · have h5 : k < s.m_size + 1 := by omega
          have h6 : i < k ∧ k ≤ s.m_size := by omega
          have h8 : k - 1 < s.m_size := by omega
          simp [h1, h2, h3, h5, h6, h7, h8]
        · have h5 : ¬ k < s.m_size + 1 := by omega
          have h8 : ¬ k - 1 < s.m_size := by omega
          simp [h1, h2, h3, h5, h7, h8]

/-- C1, at the full array `[1, 2]` of capacity 2: `add(1, 5)` resizes and shifts. -/
theorem modern_dyn_int_array.add_inserts_by_shifting_witness :
    (modern_dyn_int_array.mk 2 2 [1, 2]).WellFormed ∧
    1 ≤ (modern_dyn_int_array.mk 2 2 [1, 2]).size ∧
    ∃ s', (modern_dyn_int_array.mk 2 2 [1, 2]).add 1 5 = Outcome.returned s' ∧
      s'.size = (modern_dyn_int_array.mk 2 2 [1, 2]).size + 1 ∧
      s'.subscript 1 = some 5 ∧
      (∀ j, j < 1 → s'.subscript j = (modern_dyn_int_array.mk 2 2 [1, 2]).subscript j) ∧
      (∀ j, 1 < j → j ≤ (modern_dyn_int_array.mk 2 2 [1, 2]).size →
        s'.subscript j = (modern_dyn_int_array.mk 2 2 [1, 2]).subscript (j - 1)) ∧
      s'.contents = (modern_dyn_int_array.mk 2 2 [1, 2]).contents.take 1 ++
        5 :: (modern_dyn_int_array.mk 2 2 [1, 2]).contents.drop 1 :=
  ⟨by decide, by decide,
    modern_dyn_int_array.add_inserts_by_shifting (modern_dyn_int_array.mk 2 2 [1, 2]) 1 5
      (by decide) (by decide)⟩

/-- C2: `remove` deletes by shifting. On every well-formed array state, for every
index `i < size`, `remove(i)` returns normally; afterwards the size is `size - 1`, every
element below `i` is unchanged, every element at `j` with `i <= j < size - 1` is the old
element at `j + 1`, and the logical contents are the old contents with position `i`
erased. -/
theorem modern_dyn_int_array.remove_deletes_by_shifting (s : modern_dyn_int_array) (i : Nat)
    (hwf : s.WellFormed) (hi : i < s.size) :
    ∃ s', s.remove i = Outcome.returned s' ∧
      s'.size = s.size - 1 ∧
      (∀ j, j < i → s'.subscript j = s.subscript j) ∧
      (∀ j, i ≤ j → j < s.size - 1 → s'.subscript j = s.subscript (j + 1)) ∧
      s'.contents = s.contents.eraseIdx i := by
  obtain ⟨arr, ha, hal, hak⟩ := modern_dyn_int_array.remove_spec s i hwf hi
  obtain ⟨hlen, hsz, hpos⟩ := hwf
  simp only [modern_dyn_int_array.size] at hi ⊢
  refine ⟨_, ha, rfl, ?_, ?_, ?_⟩
  · intro j hj
    have h1 : j ≠ s.m_size - 1 := by omega
    have h2 : ¬ (i ≤ j ∧ j < s.m_size - 1) := by omega
    simp [modern_dyn_int_array.subscript, modern_dyn_int_array.load, hak, h1, h2]
  · intro j hij hj
    have h1 : j ≠ s.m_size - 1 := by omega
    have h2 : i ≤ j ∧ j < s.m_size - 1 := ⟨hij, hj⟩
    simp [modern_dyn_int_array.subscript, modern_dyn_int_array.load, hak, h1, h2]
  · apply List.ext_getElem?
    intro k
    simp only [modern_dyn_int_array.contents, List.getElem?_take, List.getElem?_eraseIdx,
      hak k]
    by_cases h1 : k < s.m_size - 1
    · have h2 : k ≠ s.m_size - 1 := by omega
      have h3 : k < s.m_size := by omega
      have h4 : k + 1 < s.m_size := by omega
      by_cases h5 : k < i
      · have h6 : ¬ (i ≤ k ∧ k < s.m_size - 1) := by omega
        simp [h1, h2, h3, h5, h6]
      · have h6 : i ≤ k ∧ k < s.m_size - 1 := by omega
        simp [h1, h2, h4, h5, h6]
    · have h3 : ¬ k + 1 < s.m_size := by omega
      have h5 : ¬ k < i := by omega
      simp [h1, h3, h5]

/-- C2, at the array `[7, 8, 9]` of capacity 4: `remove(1)` leaves `[7, 9]`. -/
theorem modern_dyn_int_array.remove_deletes_by_shifting_witness :
    (modern_dyn_int_array.mk 4 3 [7, 8, 9, 0]).WellFormed ∧
    1 < (modern_dyn_int_array.mk 4 3 [7, 8, 9, 0]).size ∧
    ∃ s', (modern_dyn_int_array.mk 4 3 [7, 8, 9, 0]).remove 1 = Outcome.returned s' ∧
      s'.size = (modern_dyn_int_array.mk 4 3 [7, 8, 9, 0]).size - 1 ∧
      (∀ j, j < 1 → s'.subscript j = (modern_dyn_int_array.mk 4 3 [7, 8, 9, 0]).subscript j) ∧
      (∀ j, 1 ≤ j → j < (modern_dyn_int_array.mk 4 3 [7, 8, 9, 0]).size - 1 →
        s'.subscript j = (modern_dyn_int_array.mk 4 3 [7, 8, 9, 0]).subscript (j + 1)) ∧
      s'.contents = (modern_dyn_int_array.mk 4 3 [7, 8, 9, 0]).contents.eraseIdx 1 :=
  ⟨by decide, by decide,
    modern_dyn_int_array.remove_deletes_by_shifting (modern_dyn_int_array.mk 4 3 [7, 8, 9, 0]) 1
      (by decide) (by decide)⟩

/-- C3: an invalid index is rejected atomically. In every array state, `add(i, e)`
raises `invalid_argument` if and only if `i > size`, `remove(i)` raises
`invalid_argument` if and only if `i >= size`, and whenever either call raises, the
object state it leaves (size, capacity and buffer) is the state before the call. -/
theorem modern_dyn_int_array.invalid_index_rejected_atomically (s : modern_dyn_int_array)
    (i : Nat) (e : Int) :
    ((∃ w s', s.add i e = Outcome.raised (Exn.invalid_argument w) s') ↔ i > s.size) ∧
    ((∃ w s', s.remove i = Outcome.raised (Exn.invalid_argument w) s') ↔ i ≥ s.size) ∧
    (∀ x s', s.add i e = Outcome.raised x s' →
      x = Exn.invalid_argument "Bad add index" ∧ s' = s) ∧
    (∀ x s', s.remove i = Outcome.raised x s' →
      x = Exn.invalid_argument "Bad remove index" ∧ s' = s) := by
  have hadd : ∀ x s', s.add i e = Outcome.raised x s' →
      i > s.m_size ∧ x = Exn.invalid_argument "Bad add index" ∧ s' = s := by
    intro x s' h
    unfold modern_dyn_int_array.add at h
    split_ifs at h with hg
    · cases hb : s.add_block i e <;> rw [hb] at h <;> simp [Outcome.ofDefined] at h
    · injection h with h1 h2
      exact ⟨by omega, h1.symm, h2.symm⟩
  have hrem : ∀ x s', s.remove i = Outcome.raised x s' →
      i ≥ s.m_size ∧ x = Exn.invalid_argument "Bad remove index" ∧ s' = s := by
    intro x s' h
    unfold modern_dyn_int_array.remove at h
    split_ifs at h with hg
    · cases hb : s.remove_block i <;> rw [hb] at h <;> simp [Outcome.ofDefined] at h
    · injection h with h1 h2
      exact ⟨by omega, h1.symm, h2.symm⟩
  refine ⟨⟨?_, ?_⟩, ⟨?_, ?_⟩, fun x s' h => (hadd x s' h).2, fun x s' h => (hrem x s' h).2⟩
  · rintro ⟨w, s', h⟩
    exact (hadd _ _ h).1
  · intro h
    have hg : ¬ i < s.m_size + 1 := by simp only [modern_dyn_int_array.size] at h; omega
    exact ⟨"Bad add index", s, by simp only [modern_dyn_int_array.add, hg, if_false]⟩
  · rintro ⟨w, s', h⟩
    exact (hrem _ _ h).1
  · intro h
    have hg : ¬ i < s.m_size := by simp only [modern_dyn_int_array.size] at h; omega
    exact ⟨"Bad remove index", s, by simp only [modern_dyn_int_array.remove, hg, if_false]⟩

/-- C3, at the array `[7, 8, 9]`: `add(4, 1)` and `remove(3)` raise and change nothing,
`add(3, 1)` and `remove(2)` do not raise. -/
theorem modern_dyn_int_array.invalid_index_rejected_atomically_witness :
    (modern_dyn_int_array.mk 4 3 [7, 8, 9, 0]).add 4 1 =
      Outcome.raised (Exn.invalid_argument "Bad add index")
        (modern_dyn_int_array.mk 4 3 [7, 8, 9, 0]) ∧
    (modern_dyn_int_array.mk 4 3 [7, 8, 9, 0]).remove 3 =
      Outcome.raised (Exn.invalid_argument "Bad remove index")
        (modern_dyn_int_array.mk 4 3 [7, 8, 9, 0]) ∧
    ¬ (∃ w s', (modern_dyn_int_array.mk 4 3 [7, 8, 9, 0]).add 3 1 =
      Outcome.raised (Exn.invalid_argument w) s') ∧
    ¬ (∃ w s', (modern_dyn_int_array.mk 4 3 [7, 8, 9, 0]).remove 2 =
      Outcome.raised (Exn.invalid_argument w) s') := by
  have h4 := modern_dyn_int_array.invalid_index_rejected_atomically
    (modern_dyn_int_array.mk 4 3 [7, 8, 9, 0]) 4 1
  have h3 := modern_dyn_int_array.invalid_index_rejected_atomically
    (modern_dyn_int_array.mk 4 3 [7, 8, 9, 0]) 3 1
  have h2 := modern_dyn_int_array.invalid_index_rejected_atomically
    (modern_dyn_int_array.mk 4 3 [7, 8, 9, 0]) 2 1
  refine ⟨?_, ?_, ?_, ?_⟩
  · obtain ⟨w, s', h⟩ := h4.1.2 (by decide)
    obtain ⟨hx, hs⟩ := h4.2.2.1 _ _ h
    rw [h, hx, hs]
  · obtain ⟨w, s', h⟩ := h3.2.1.2 (by decide)
    obtain ⟨hx, hs⟩ := h3.2.2.2 _ _ h
    rw [h, hx, hs]
  · intro h
    exact absurd (h3.1.1 h) (by decide)
  · intro h
    exact absurd (h2.2.1.1 h) (by decide)

/-! ### Lemmas for `ratio` -/

/-- On non-negative arguments the Euclid loop computes the greatest common divisor. -/
theorem ratio.gcd_natCast (n : Nat) : ∀ m : Nat, ratio.gcd (m : Int) (n : Int) = (Nat.gcd m n : Int) := by
  induction n using Nat.strong_induction_on with
  | _ n ih =>
    intro m
    rw [ratio.gcd]
    by_cases hn : n = 0
    · subst hn
      simp
    · have hn' : (n : Int) ≠ 0 := by exact_mod_cast hn
      rw [if_pos hn', ← Int.ofNat_tmod, ih (m % n) (Nat.mod_lt _ (Nat.pos_of_ne_zero hn)) n]
      rw [Nat.gcd_comm n (m % n), ← Nat.gcd_rec, Nat.gcd_comm]

/-- The value of the `gcd` call in `reduce`. -/
theorem ratio.gcd_natAbs (a b : Int) :
    ratio.gcd a.natAbs b.natAbs = (Int.gcd a b : Int) := by
  rw [ratio.gcd_natCast]
  rfl

/-- Cross-multiplication is equality of values. -/
theorem ratio.value_eq_iff (a b : ratio) (ha : a.m_den ≠ 0) (hb : b.m_den ≠ 0) :
    a.value = b.value ↔ a.m_num * b.m_den = b.m_num * a.m_den := by
  have ha' : (a.m_den : ℚ) ≠ 0 := by exact_mod_cast ha
  have hb' : (b.m_den : ℚ) ≠ 0 := by exact_mod_cast hb
  unfold ratio.value
  rw [div_eq_div_iff ha' hb']
  exact_mod_cast Iff.rfl

/-- A ratio in lowest terms with a positive denominator is determined by its value. -/
theorem ratio.Normal.eq_of_value_eq {a b : ratio} (ha : a.Normal) (hb : b.Normal)
    (h : a.value = b.value) : a = b := by
  have hna : (a.value).num = a.m_num := Rat.num_div_eq_of_coprime ha.1 ha.2
  have hnb : (b.value).num = b.m_num := Rat.num_div_eq_of_coprime hb.1 hb.2
  have hda : ((a.value).den : Int) = a.m_den := Rat.den_div_eq_of_coprime ha.1 ha.2
  have hdb : ((b.value).den : Int) = b.m_den := Rat.den_div_eq_of_coprime hb.1 hb.2
  have h1 : a.m_num = b.m_num := by rw [← hna, ← hnb, h]
  have h2 : a.m_den = b.m_den := by rw [← hda, ← hdb, h]
  cases a
  cases b
  simp_all

/-- The friend `operator==` on ratios is equality of the members. -/
theorem ratio.operator_eq_iff (a b : ratio) : ratio.operator_eq a b = true ↔ a = b := by
  cases a
  cases b
  simp [ratio.operator_eq]

/-- Inside the range of `int` the conversion keeps the value. -/
theorem long_to_int_of_range (x : Int) (h1 : -2 ^ 31 ≤ x) (h2 : x < 2 ^ 31) :
    long_to_int x = x := by
  unfold long_to_int
  norm_num at h1 h2 ⊢
  omega

/-- When `abs` is defined its result is the absolute value of a value above `INT_MIN`. -/
theorem abs_int_eq_some {x a : Int} (h : abs_int x = some a) :
    x ≠ -2 ^ 31 ∧ a = (x.natAbs : Int) := by
  unfold abs_int at h
  split_ifs at h with hx
  exact ⟨hx, (Option.some.inj h).symm⟩

/-- The helper `reduce` throws exactly on a zero denominator. -/
theorem ratio.reduce_thrown (r : ratio) :
    (ratio.reduce r).thrown =
      if r.m_den = 0 then some (Exn.domain_error "Division by zero.") else none := by
  unfold ratio.reduce
  by_cases h0 : r.m_den = 0
  · simp only [h0, if_true, Outcome.thrown]
  · simp only [h0, if_false]
    cases abs_int (long_to_int r.m_num) with
    | none => rfl
    | some a =>
      cases abs_int (long_to_int r.m_den) with
      | none => rfl
      | some b =>
        dsimp only
        split_ifs <;> rfl

/-- Truncated division of a number by a positive number that is not larger. -/
theorem one_le_tdiv (x g : Int) (hg : 0 < g) (h : g ≤ x) : 1 ≤ x.tdiv g := by
  rw [Int.tdiv_eq_ediv (by omega) (by omega)]
  exact Int.le_ediv_of_mul_le hg (by omega)

/-- Whatever `reduce` returns has a positive denominator, also when the `int` conversion
cut the members. -/
theorem ratio.reduce_den_pos (r r' : ratio) (h : ratio.reduce r = Outcome.returned r') :
    0 < r'.m_den := by
  by_cases h0 : r.m_den = 0
  · simp [ratio.reduce, h0] at h
  cases ha : abs_int (long_to_int r.m_num) with
  | none => simp [ratio.reduce, h0, ha] at h
  | some a =>
    cases hb : abs_int (long_to_int r.m_den) with
    | none => simp [ratio.reduce, h0, ha, hb] at h
    | some b =>
      obtain ⟨hxa, rfl⟩ := abs_int_eq_some ha
      obtain ⟨hxb, rfl⟩ := abs_int_eq_some hb
      by_cases hg : ratio.gcd (long_to_int r.m_num).natAbs (long_to_int r.m_den).natAbs = 0
      · simp only [ratio.reduce, if_neg h0, ha, hb, if_pos hg] at h
        exact Outcome.noConfusion h
      · simp only [ratio.reduce, if_neg h0, ha, hb, if_neg hg] at h
        rw [ratio.gcd_natAbs] at h hg
        have hG : 0 < Int.gcd (long_to_int r.m_num) (long_to_int r.m_den) := by
          rcases Nat.eq_zero_or_pos (Int.gcd (long_to_int r.m_num) (long_to_int r.m_den))
            with hz | hz
          · rw [hz] at hg
            exact absurd rfl hg
          · exact hz
        have hbound : Int.gcd (long_to_int r.m_num) (long_to_int r.m_den) ≤
            r.m_den.natAbs := by
          by_cases hy : long_to_int r.m_den = 0
          · have hgx : Int.gcd (long_to_int r.m_num) (long_to_int r.m_den) =
                (long_to_int r.m_num).natAbs := by
              rw [hy, Int.gcd_zero_right]
            rw [hgx]
            unfold long_to_int at hy hxa ⊢
            norm_num at hy hxa ⊢
            omega
          · have hdvd : Int.gcd (long_to_int r.m_num) (long_to_int r.m_den) ∣
                (long_to_int r.m_den).natAbs := Nat.gcd_dvd_right _ _
            have hle := Nat.le_of_dvd (Int.natAbs_pos.2 hy) hdvd
            have hle2 : (long_to_int r.m_den).natAbs ≤ r.m_den.natAbs := by
              unfold long_to_int at hxb ⊢
              norm_num at hxb ⊢
              omega
            exact le_trans hle hle2
        generalize Int.gcd (long_to_int r.m_num) (long_to_int r.m_den) = G at h hG hbound
        have hGi : (0 : Int) < (G : Int) := by exact_mod_cast hG
        rcases lt_or_gt_of_ne h0 with hneg | hpos
        · have h1 : 1 ≤ (-r.m_den).tdiv (G : Int) := one_le_tdiv _ _ hGi (by omega)
          rw [Int.neg_tdiv] at h1
          have hlt : r.m_den.tdiv (G : Int) < 0 := by omega
          rw [if_pos hlt] at h
          injection h with h
          subst h
          dsimp only
          omega
        · have h1 : 1 ≤ r.m_den.tdiv (G : Int) := one_le_tdiv _ _ hGi (by omega)
          have hlt : ¬ r.m_den.tdiv (G : Int) < 0 := by omega
          rw [if_neg hlt] at h
          injection h with h
          subst h
          dsimp only
          omega

/-- Constructor-built ratios have a positive denominator. -/
theorem ratio.ConstructorBuilt.den_pos {r : ratio} (h : r.ConstructorBuilt) :
    0 < r.m_den := by
  obtain ⟨n, d, hr⟩ := h
  exact ratio.reduce_den_pos _ r hr

/-- Inside the range of `int`, and with a non-zero denominator, `reduce` returns a ratio in
lowest terms with a positive denominator that cross-multiplies to the same fraction. -/
theorem ratio.reduce_spec_of_int_range (r : ratio) (h : r.m_den ≠ 0)
    (hn1 : -2 ^ 31 < r.m_num) (hn2 : r.m_num < 2 ^ 31)
    (hd1 : -2 ^ 31 < r.m_den) (hd2 : r.m_den < 2 ^ 31) :
    ∃ r', ratio.reduce r = Outcome.returned r' ∧ r'.Normal ∧
      r'.m_num * r.m_den = r.m_num * r'.m_den := by
  have hxn : long_to_int r.m_num = r.m_num := long_to_int_of_range _ (le_of_lt hn1) hn2
  have hxd : long_to_int r.m_den = r.m_den := long_to_int_of_range _ (le_of_lt hd1) hd2
  have han : abs_int (long_to_int r.m_num) = some (r.m_num.natAbs : Int) := by
    rw [hxn, abs_int, if_neg (ne_of_gt hn1)]
  have had : abs_int (long_to_int r.m_den) = some (r.m_den.natAbs : Int) := by
    rw [hxd, abs_int, if_neg (ne_of_gt hd1)]
  have hg : 0 < Int.gcd r.m_num r.m_den := Int.gcd_pos_of_ne_zero_right _ h
  have hg0 : ((Int.gcd r.m_num r.m_den : Nat) : Int) ≠ 0 := by
    exact_mod_cast (ne_of_gt hg)
  have hgn : ((Int.gcd r.m_num r.m_den : Nat) : Int) ∣ r.m_num := Int.gcd_dvd_left
  have hgd : ((Int.gcd r.m_num r.m_den : Nat) : Int) ∣ r.m_den := Int.gcd_dvd_right
  have hcop := Int.gcd_div_gcd_div_gcd hg
  have hn := Int.ediv_mul_cancel hgn
  have hd := Int.ediv_mul_cancel hgd
  have hd0 : r.m_den / (Int.gcd r.m_num r.m_den : Int) ≠ 0 := by
    intro h0
    rw [h0, zero_mul] at hd
    exact h hd.symm
  simp only [ratio.reduce, if_neg h, han, had, ratio.gcd_natAbs, if_neg hg0,
    Int.tdiv_eq_ediv_of_dvd hgn, Int.tdiv_eq_ediv_of_dvd hgd]
  by_cases hneg : r.m_den / (Int.gcd r.m_num r.m_den : Int) < 0
  · refine ⟨_, if_pos hneg, ⟨by dsimp only; omega, ?_⟩, ?_⟩
    · simpa [Int.gcd_neg, Int.neg_gcd] using hcop
    · dsimp only
      linear_combination (-(r.m_den / (Int.gcd r.m_num r.m_den : Int))) * hn +
        (r.m_num / (Int.gcd r.m_num r.m_den : Int)) * hd
  · refine ⟨_, if_neg hneg, ⟨by dsimp only; omega, hcop⟩, ?_⟩
    dsimp only
    linear_combination (r.m_den / (Int.gcd r.m_num r.m_den : Int)) * hn -
      (r.m_num / (Int.gcd r.m_num r.m_den : Int)) * hd

/-- With a positive denominator on both sides, `operator<` and `operator<=` are the order
of the values. -/
theorem ratio.operator_lt_le_iff (a b : ratio) (ha : 0 < a.m_den) (hb : 0 < b.m_den) :
    (ratio.operator_lt a b = true ↔ a.value < b.value) ∧
    (ratio.operator_le a b = true ↔ a.value ≤ b.value) := by
  have hda : (0 : ℚ) < (a.m_den : ℚ) := by exact_mod_cast ha
  have hdb : (0 : ℚ) < (b.m_den : ℚ) := by exact_mod_cast hb
  constructor
  · simp only [ratio.operator_lt, decide_eq_true_eq, ratio.value]
    rw [div_lt_div_iff₀ hda hdb, mul_comm a.m_den b.m_num]
    exact_mod_cast Iff.rfl
  · simp only [ratio.operator_le, decide_eq_true_eq, ratio.value]
    rw [div_le_div_iff₀ hda hdb, mul_comm a.m_den b.m_num]
    exact_mod_cast Iff.rfl

/-- The helper `reduce` with the Euclid loop replaced by its value. -/
theorem ratio.reduce_eq (r : ratio) :
    ratio.reduce r =
      if r.m_den = 0 then
        Outcome.raised (Exn.domain_error "Division by zero.") r
      else
        match abs_int (long_to_int r.m_num) with
        | none => Outcome.undefined
        | some a =>
          match abs_int (long_to_int r.m_den) with
          | none => Outcome.undefined
          | some b =>
            if (Int.gcd a b : Int) = 0 then
              Outcome.undefined
            else if r.m_den.tdiv (Int.gcd a b : Int) < 0 then
              Outcome.returned
                { m_num := r.m_num.tdiv (Int.gcd a b : Int) * -1,
                  m_den := r.m_den.tdiv (Int.gcd a b : Int) * -1 }
            else
              Outcome.returned
                { m_num := r.m_num.tdiv (Int.gcd a b : Int),
                  m_den := r.m_den.tdiv (Int.gcd a b : Int) } := by
  unfold ratio.reduce
  by_cases h0 : r.m_den = 0
  · simp only [h0, if_true]
  · simp only [h0, if_false]
    cases ha : abs_int (long_to_int r.m_num) with
    | none => rfl
    | some a =>
      cases hb : abs_int (long_to_int r.m_den) with
      | none => rfl
      | some b =>
        obtain ⟨-, rfl⟩ := abs_int_eq_some ha
        obtain ⟨-, rfl⟩ := abs_int_eq_some hb
        simp only [ratio.gcd_natAbs, Int.gcd_eq_natAbs, Int.natAbs_ofNat]

/-! ### The claims about `ratio` -/

/-- C4, evaluated: the constructor takes the gcd of the members cut to `int`.
`ratio(4294967299, 6)` converts the numerator to the `int` 3, divides both members by
`gcd(3, 6) = 3` and stores `1431655766/2`, which is not in lowest terms and is not the
fraction `4294967299/6`; `ratio(4294967296, 4294967296)` converts both members to 0 and
divides by `gcd(0, 0) = 0`. Inside the range of `int` the constructor does what the claim
says: `ratio(4, -6)` is stored as `-2/3`, `ratio(0, -6)` as `0/1`, and `ratio(1, 0)`
raises `domain_error("Division by zero.")`. -/
theorem ratio.ctor_reduces_with_int_abs :
    ratio.ctor 4294967299 6 = Outcome.returned { m_num := 1431655766, m_den := 2 } ∧
    Nat.gcd (1431655766 : Int).natAbs (2 : Int).natAbs = 2 ∧
    (1431655766 : Int) * 6 ≠ 4294967299 * 2 ∧
    ratio.ctor 4294967296 4294967296 = Outcome.undefined ∧
    ratio.ctor 4 (-6) = Outcome.returned { m_num := -2, m_den := 3 } ∧
    ratio.ctor 0 (-6) = Outcome.returned { m_num := 0, m_den := 1 } ∧
    (ratio.ctor 1 0).thrown = some (Exn.domain_error "Division by zero.") := by
  refine ⟨?_, by decide, by decide, ?_, ?_, ?_, ?_⟩
  · rw [ratio.ctor, ratio.reduce_eq]; decide
  · rw [ratio.ctor, ratio.reduce_eq]; decide
  · rw [ratio.ctor, ratio.reduce_eq]; decide
  · rw [ratio.ctor, ratio.reduce_eq]; decide
  · simp [ratio.ctor, ratio.reduce, Outcome.thrown]

/-- The aliased call `r /= r` on a constructor-built ratio raises `domain_error` exactly
when the numerator of `r` is 0, like the call on two objects; the value it leaves is
another one, `1/3` at `2/3`. -/
theorem ratio.operator_div_assign_self_thrown (a : ratio) (ha : a.ConstructorBuilt) :
    (a.operator_div_assign_self).thrown =
      (if a.m_num = 0 then some (Exn.domain_error "Division by zero.") else none) ∧
    ratio.operator_div_assign_self { m_num := 2, m_den := 3 } =
      Outcome.returned { m_num := 1, m_den := 3 } := by
  have hden : 0 < a.m_den := ha.den_pos
  constructor
  · rw [ratio.operator_div_assign_self, ratio.reduce_thrown]
    by_cases h0 : a.m_num = 0
    · simp [h0]
    · have hne : a.m_den * (a.m_num * a.m_den) ≠ 0 :=
        mul_ne_zero (ne_of_gt hden) (mul_ne_zero h0 (ne_of_gt hden))
      simp only [hne, h0, if_false]
  · rw [ratio.operator_div_assign_self, ratio.reduce_eq]; decide

/-- C6, evaluated: `operator==` compares the stored members, and the constructor does not
always store lowest terms. `ratio(4294967297, 4294967297)` converts both members to the
`int` 1, divides by `gcd(1, 1) = 1` and stores them as they are, so
`ratio(4294967297, 4294967297) == ratio(1, 1)` is false and `!=` is true although
`4294967297 * 1 = 1 * 4294967297`. At the values of the test, `ratio{2,3} == ratio{4,6}` is
true and `ratio{4,5} == ratio{2,3}` is false. -/
theorem ratio.operator_eq_false_on_equal_values :
    ratio.ctor 4294967297 4294967297 =
      Outcome.returned { m_num := 4294967297, m_den := 4294967297 } ∧
    ratio.ctor 1 1 = Outcome.returned { m_num := 1, m_den := 1 } ∧
    (4294967297 : Int) * 1 = 1 * 4294967297 ∧
    ratio.operator_eq { m_num := 4294967297, m_den := 4294967297 }
      { m_num := 1, m_den := 1 } = false ∧
    ratio.operator_ne { m_num := 4294967297, m_den := 4294967297 }
      { m_num := 1, m_den := 1 } = true ∧
    ratio.ctor 2 3 = Outcome.returned { m_num := 2, m_den := 3 } ∧
    ratio.ctor 4 6 = Outcome.returned { m_num := 2, m_den := 3 } ∧
    ratio.ctor 4 5 = Outcome.returned { m_num := 4, m_den := 5 } ∧
    ratio.operator_eq { m_num := 2, m_den := 3 } { m_num := 2, m_den := 3 } = true ∧
    ratio.operator_eq { m_num := 4, m_den := 5 } { m_num := 2, m_den := 3 } = false := by
  refine ⟨?_, ?_, by decide, by decide, by decide, ?_, ?_, ?_, by decide, by decide⟩ <;>
    (rw [ratio.ctor, ratio.reduce_eq]; decide)

/-- C7, evaluated: between the constructor-built ratios `ratio(4294967297, 4294967297)`,
stored unreduced, and `ratio(1, 1)`, which have the same value 1, none of `a < b`,
`a == b`, `a > b` holds, where the claim says exactly one does. (`operator<` and
`operator<=` themselves follow the order of the values, the stored denominators being
positive: here `a < b` is false and `a <= b` is true.) -/
theorem ratio.no_relation_holds_on_equal_values :
    ratio.ConstructorBuilt { m_num := 4294967297, m_den := 4294967297 } ∧
    ratio.ConstructorBuilt { m_num := 1, m_den := 1 } ∧
    (ratio.mk 4294967297 4294967297).value = (ratio.mk 1 1).value ∧
    ratio.operator_lt { m_num := 4294967297, m_den := 4294967297 }
      { m_num := 1, m_den := 1 } = false ∧
    ratio.operator_eq { m_num := 4294967297, m_den := 4294967297 }
      { m_num := 1, m_den := 1 } = false ∧
    ratio.operator_gt { m_num := 4294967297, m_den := 4294967297 }
      { m_num := 1, m_den := 1 } = false ∧
    ratio.operator_le { m_num := 4294967297, m_den := 4294967297 }
      { m_num := 1, m_den := 1 } = true := by
  refine ⟨⟨4294967297, 4294967297, ?_⟩, ⟨1, 1, ?_⟩, ?_, by decide, by decide, by decide,
    by decide⟩
  · rw [ratio.ctor, ratio.reduce_eq]; decide
  · rw [ratio.ctor, ratio.reduce_eq]; decide
  · simp [ratio.value]

/-- C8, evaluated: addition and subtraction reduce with the denominator cut to `int`.
For the constructor-built `3/65536` the sum `3/65536 + 3/65536` has numerator 393216 and
denominator `2 ^ 32`, which converts to 0, so both are divided by
`gcd(393216, 0) = 393216` and `1/10922` is returned, not `3/32768`; likewise
`7/65536 - 1/65536` returns `1/10922`, not `3/32768`. At the values of the test,
`4/5 + 2/3` returns `22/15` and `4/5 - 2/3` returns `2/15`. -/
theorem ratio.operator_plus_minus_inexact :
    ratio.ctor 3 65536 = Outcome.returned { m_num := 3, m_den := 65536 } ∧
    ratio.ctor 7 65536 = Outcome.returned { m_num := 7, m_den := 65536 } ∧
    ratio.ctor 1 65536 = Outcome.returned { m_num := 1, m_den := 65536 } ∧
    ratio.operator_plus { m_num := 3, m_den := 65536 } { m_num := 3, m_den := 65536 } =
      Outcome.returned { m_num := 1, m_den := 10922 } ∧
    (ratio.mk 1 10922).value ≠ (ratio.mk 3 65536).value + (ratio.mk 3 65536).value ∧
    ratio.operator_minus { m_num := 7, m_den := 65536 } { m_num := 1, m_den := 65536 } =
      Outcome.returned { m_num := 1, m_den := 10922 } ∧
    (ratio.mk 1 10922).value ≠ (ratio.mk 7 65536).value - (ratio.mk 1 65536).value ∧
    ratio.operator_plus { m_num := 4, m_den := 5 } { m_num := 2, m_den := 3 } =
      Outcome.returned { m_num := 22, m_den := 15 } ∧
    ratio.operator_minus { m_num := 4, m_den := 5 } { m_num := 2, m_den := 3 } =
      Outcome.returned { m_num := 2, m_den := 15 } := by
  refine ⟨?_, ?_, ?_, ?_, ?_, ?_, ?_, ?_, ?_⟩
  · rw [ratio.ctor, ratio.reduce_eq]; decide
  · rw [ratio.ctor, ratio.reduce_eq]; decide
  · rw [ratio.ctor, ratio.reduce_eq]; decide
  · rw [ratio.operator_plus, ratio.operator_plus_assign, ratio.reduce_eq]; decide
  · norm_num [ratio.value]
  · rw [ratio.operator_minus, ratio.operator_minus_assign, ratio.reduce_eq]; decide
  · norm_num [ratio.value]
  · rw [ratio.operator_plus, ratio.operator_plus_assign, ratio.reduce_eq]; decide
  · rw [ratio.operator_minus, ratio.operator_minus_assign, ratio.reduce_eq]; decide

/-- C9, evaluated: multiplication and division reduce with the members cut to `int`.
For the constructor-built `3/65536` and `1/65536` the product has denominator `2 ^ 32`,
which converts to 0, so both members are divided by `gcd(3, 0) = 3` and `1/1431655765`
is returned, not `3/4294967296`. For the constructor-built `a = b = 4294967296/1` the
quotient `a / b` has both members `2 ^ 32`, which convert to 0, and divides by
`gcd(0, 0) = 0`: it returns nothing to multiply back. At the values of the test,
`4/5 * 2/3` returns `8/15` and `4/5 / 2/3` returns `6/5`. -/
theorem ratio.operator_times_div_inexact :
    ratio.ctor 3 65536 = Outcome.returned { m_num := 3, m_den := 65536 } ∧
    ratio.ctor 1 65536 = Outcome.returned { m_num := 1, m_den := 65536 } ∧
    ratio.operator_times { m_num := 3, m_den := 65536 } { m_num := 1, m_den := 65536 } =
      Outcome.returned { m_num := 1, m_den := 1431655765 } ∧
    (ratio.mk 1 1431655765).value ≠ (ratio.mk 3 65536).value * (ratio.mk 1 65536).value ∧
    ratio.ctor 4294967296 1 = Outcome.returned { m_num := 4294967296, m_den := 1 } ∧
    ratio.operator_div { m_num := 4294967296, m_den := 1 } { m_num := 4294967296, m_den := 1 } =
      Outcome.undefined ∧
    ratio.operator_times { m_num := 4, m_den := 5 } { m_num := 2, m_den := 3 } =
      Outcome.returned { m_num := 8, m_den := 15 } ∧
    ratio.operator_div { m_num := 4, m_den := 5 } { m_num := 2, m_den := 3 } =
      Outcome.returned { m_num := 6, m_den := 5 } := by
  refine ⟨?_, ?_, ?_, ?_, ?_, ?_, ?_, ?_⟩
  · rw [ratio.ctor, ratio.reduce_eq]; decide
  · rw [ratio.ctor, ratio.reduce_eq]; decide
  · rw [ratio.operator_times, ratio.operator_times_assign, ratio.reduce_eq]; decide
  · norm_num [ratio.value]
  · rw [ratio.ctor, ratio.reduce_eq]; decide
  · rw [ratio.operator_div, ratio.operator_div_assign, ratio.reduce_eq]; decide
  · rw [ratio.operator_times, ratio.operator_times_assign, ratio.reduce_eq]; decide
  · rw [ratio.operator_div, ratio.operator_div_assign, ratio.reduce_eq]; decide

/-- C10, evaluated: the no-argument constructor leaves the default member initialisers
`m_num{1}`, `m_den{1}` in place, so a default-constructed ratio has numerator 1 and value
1; it is not equal to `ratio(0, 1)`, which is stored as `0/1`. -/
theorem ratio.ctor_default_is_one :
    ratio.ctor_default.m_num = 1 ∧ ratio.ctor_default.m_den = 1 ∧
    ratio.ctor_default.value = 1 ∧
    ratio.ctor 0 1 = Outcome.returned { m_num := 0, m_den := 1 } ∧
    ratio.operator_eq ratio.ctor_default { m_num := 0, m_den := 1 } = false := by
  refine ⟨rfl, rfl, ?_, ?_, ?_⟩
  · simp [ratio.value, ratio.ctor_default]
  · rw [ratio.ctor, ratio.reduce_eq]; decide
  · simp [ratio.operator_eq, ratio.ctor_default]

/-! ### Lemmas for the stream operators -/

/-- What is used about the ten digit characters. -/
theorem digit_char_facts (d : Nat) (h : d < 10) :
    (digit_char d).isDigit = true ∧ (digit_char d).toNat - 48 = d ∧
    is_space (digit_char d) = false ∧ digit_char d ≠ '/' ∧ digit_char d ≠ '-' ∧
    digit_char d ≠ '+' := by
  interval_cases d <;> decide

/-- Every character of a formatted natural number is a digit character. -/
theorem put_nat_digits (n : Nat) : ∀ c ∈ put_nat n, ∃ d, d < 10 ∧ c = digit_char d := by
  induction n using Nat.strong_induction_on with
  | _ n ih =>
    intro c hc
    rw [put_nat] at hc
    by_cases h : n < 10
    · rw [if_pos h] at hc
      exact ⟨n, h, by simpa using hc⟩
    · rw [if_neg h, List.mem_append] at hc
      rcases hc with hc | hc
      · exact ih (n / 10) (by omega) c hc
      · exact ⟨n % 10, by omega, by simpa using hc⟩

/-- A formatted natural number starts with a digit character. -/
theorem put_nat_head (n : Nat) : ∃ d cs, d < 10 ∧ put_nat n = digit_char d :: cs := by
  induction n using Nat.strong_induction_on with
  | _ n ih =>
    rw [put_nat]
    by_cases h : n < 10
    · exact ⟨n, [], h, by rw [if_pos h]⟩
    · obtain ⟨d, cs, hd, hcs⟩ := ih (n / 10) (by omega)
      exact ⟨d, cs ++ [digit_char (n % 10)], hd, by rw [if_neg h, hcs]; rfl⟩

/-- Reading back the digits of a formatted natural number. -/
theorem atol_digits_put_nat (n : Nat) : ∀ (acc : Nat) (rest : List Char),
    atol_digits acc (put_nat n ++ rest) =
      atol_digits (acc * 10 ^ (put_nat n).length + n) rest := by
  induction n using Nat.strong_induction_on with
  | _ n ih =>
    intro acc rest
    rw [put_nat]
    by_cases h : n < 10
    · obtain ⟨h1, h2, -⟩ := digit_char_facts n h
      simp [if_pos h, atol_digits, h1, h2]
    · obtain ⟨h1, h2, -⟩ := digit_char_facts (n % 10) (by omega)
      rw [if_neg h, List.append_assoc, ih (n / 10) (by omega)]
      simp only [List.singleton_append, atol_digits, h1, if_true, h2, List.length_append,
        List.length_singleton]
      congr 1
      rw [pow_succ]
      have := Nat.div_add_mod n 10
      nlinarith [Nat.div_add_mod n 10]

/-- The function `atol` reads a formatted natural number back. -/
theorem atol_put_nat (n : Nat) : atol (put_nat n) = (n : Int) := by
  obtain ⟨d, cs, hd, hcs⟩ := put_nat_head n
  obtain ⟨-, -, h3, -, h5, h6⟩ := digit_char_facts d hd
  have hval := atol_digits_put_nat n 0 []
  rw [List.append_nil, hcs] at hval
  simp only [atol, hcs, List.dropWhile_cons_of_neg (by simp [h3] : ¬ is_space (digit_char d) = true),
    if_neg h5, if_neg h6, hval]
  simp [atol_digits]

/-- The function `atol` reads a formatted `long` back. -/
theorem atol_put_long (n : Int) : atol (put_long n) = n := by
  by_cases h : n < 0
  · obtain ⟨d, cs, hd, hcs⟩ := put_nat_head n.natAbs
    have hval := atol_digits_put_nat n.natAbs 0 []
    rw [List.append_nil] at hval
    have hsp : ¬ is_space '-' = true := by decide
    simp only [put_long, if_pos h, atol, List.dropWhile_cons_of_neg hsp, if_true, hval]
    simp only [zero_mul, zero_add, atol_digits]
    omega
  · have hn : ((n.natAbs : Nat) : Int) = n := by omega
    rw [put_long, if_neg h, atol_put_nat, hn]

/-- A formatted `long` contains no whitespace and no `/`. -/
theorem put_long_chars (n : Int) : ∀ c ∈ put_long n, is_space c = false ∧ c ≠ '/' := by
  intro c hc
  have hdig : ∀ c ∈ put_nat n.natAbs, is_space c = false ∧ c ≠ '/' := by
    intro c hc
    obtain ⟨d, hd, rfl⟩ := put_nat_digits _ c hc
    obtain ⟨-, -, h3, h4, -⟩ := digit_char_facts d hd
    exact ⟨h3, h4⟩
  rw [put_long] at hc
  by_cases h : n < 0
  · rw [if_pos h, List.mem_cons] at hc
    rcases hc with rfl | hc
    · decide
    · exact hdig c hc
  · rw [if_neg h] at hc
    exact hdig c hc

/-- A formatted `long` is not empty. -/
theorem put_long_ne_nil (n : Int) : put_long n ≠ [] := by
  obtain ⟨d, cs, -, hcs⟩ := put_nat_head n.natAbs
  rw [put_long]
  split_ifs <;> simp [hcs]

/-- The member `find` on a text without the character. -/
theorem string_find_none (c : Char) (a : List Char) (h : ∀ x ∈ a, x ≠ c) :
    string_find c a = none := by
  induction a with
  | nil => rfl
  | cons x xs ih =>
    have hx : x ≠ c := h x (List.mem_cons_self _ _)
    simp [string_find, hx, ih (fun y hy => h y (List.mem_cons_of_mem _ hy))]

/-- The member `find` stops at the first occurrence. -/
theorem string_find_append (c : Char) (a b : List Char) (h : ∀ x ∈ a, x ≠ c) :
    string_find c (a ++ c :: b) = some a.length := by
  induction a with
  | nil => simp [string_find]
  | cons x xs ih =>
    have hx : x ≠ c := h x (List.mem_cons_self _ _)
    simp [string_find, hx, ih (fun y hy => h y (List.mem_cons_of_mem _ hy))]

/-- Extraction of a word from a stream that holds one word and nothing else. -/
theorem istream_get_word_of_no_space (t : List Char) (h : ∀ c ∈ t, is_space c = false) :
    istream_get_word t = (t, []) := by
  have h1 : t.dropWhile is_space = t := by
    cases t with
    | nil => rfl
    | cons x xs =>
      exact List.dropWhile_cons_of_neg (by simp [h x (List.mem_cons_self _ _)])
  have h2 : t.takeWhile (fun c => !is_space c) = t := by
    rw [List.takeWhile_eq_self_iff]
    intro c hc
    simp [h c hc]
  have h3 : t.dropWhile (fun c => !is_space c) = [] := by
    rw [List.dropWhile_eq_nil_iff]
    intro c hc
    simp [h c hc]
  simp only [istream_get_word, h1, h2, h3]

/-- Reading back, with `operator>>`, the text `operator<<` wrote for a ratio gives the
members of that ratio. -/
theorem ratio.operator_shr_operator_shl (r r0 : ratio) :
    ratio.operator_shr (ratio.operator_shl [] r) r0 = ([], r) := by
  have hnum := put_long_chars r.m_num
  have hden := put_long_chars r.m_den
  by_cases h : r.m_den = 1
  · have htext : ratio.operator_shl [] r = put_long r.m_num := by
      simp [ratio.operator_shl, h]
    have hword := istream_get_word_of_no_space (put_long r.m_num) (fun c hc => (hnum c hc).1)
    have hfind := string_find_none '/' (put_long r.m_num) (fun c hc => (hnum c hc).2)
    rw [htext]
    simp only [ratio.operator_shr, hword, hfind, atol_put_long]
    cases r
    simp_all
  · have htext : ratio.operator_shl [] r = put_long r.m_num ++ '/' :: put_long r.m_den := by
      simp [ratio.operator_shl, h]
    have hword := istream_get_word_of_no_space (put_long r.m_num ++ '/' :: put_long r.m_den)
      (by
        intro c hc
        rw [List.mem_append, List.mem_cons] at hc
        rcases hc with hc | rfl | hc
        · exact (hnum c hc).1
        · decide
        · exact (hden c hc).1)
    have hfind := string_find_append '/' (put_long r.m_num) (put_long r.m_den)
      (fun c hc => (hnum c hc).2)
    rw [htext]
    simp only [ratio.operator_shr, hword, hfind, List.take_left', List.drop_left',
      List.take_append_eq_append_take, List.take_length, Nat.sub_self, List.take_zero,
      List.append_nil, atol_put_long]
    have hdrop : List.drop ((put_long r.m_num).length + 1)
        (put_long r.m_num ++ '/' :: put_long r.m_den) = put_long r.m_den := by
      rw [List.drop_append_eq_append_drop]
      simp
    rw [hdrop, atol_put_long]

/-! ### The claim about the stream operators -/

/-- C11: printing and reading a ratio round-trip. `operator<<` writes the decimal
numerator alone when the denominator is 1 and numerator, `/`, denominator otherwise; for
every ratio `r` (in lowest terms with a positive denominator or not), extracting with
`operator>>` from the text that `operator<<` wrote for `r` consumes the text and yields
a ratio equal to `r` under `operator==`, whatever the target held before. -/
theorem ratio.print_read_roundtrip (r r0 : ratio) (os : List Char) :
    (r.m_den = 1 → ratio.operator_shl os r = os ++ put_long r.m_num) ∧
    (r.m_den ≠ 1 →
      ratio.operator_shl os r = os ++ put_long r.m_num ++ ['/'] ++ put_long r.m_den) ∧
    ratio.operator_eq (ratio.operator_shr (ratio.operator_shl [] r) r0).2 r = true := by
  refine ⟨fun h => by simp [ratio.operator_shl, h], fun h => by simp [ratio.operator_shl, h],
    ?_⟩
  rw [ratio.operator_shr_operator_shl, ratio.operator_eq_iff]

/-- C11, at the test's texts: `4/3` is written for the ratio 4/3 and reads back as 4/3, `5`
is written for 5/1 and reads back as 5/1. -/
theorem ratio.print_read_roundtrip_witness :
    ratio.operator_shl [] { m_num := 4, m_den := 3 } = ['4', '/', '3'] ∧
    ratio.operator_shl [] { m_num := 5, m_den := 1 } = ['5'] ∧
    (ratio.operator_shr ['5'] ratio.ctor_default).2 = { m_num := 5, m_den := 1 } ∧
    (ratio.operator_shr ['4', '/', '3'] { m_num := 5, m_den := 1 }).2 =
      { m_num := 4, m_den := 3 } ∧
    ratio.operator_eq
      (ratio.operator_shr (ratio.operator_shl [] { m_num := 4, m_den := 3 })
        { m_num := 5, m_den := 1 }).2 { m_num := 4, m_den := 3 } = true :=
  ⟨by simp [ratio.operator_shl, put_long, put_nat, digit_char],
    by simp [ratio.operator_shl, put_long, put_nat, digit_char],
    by decide, by decide,
    (ratio.print_read_roundtrip { m_num := 4, m_den := 3 } { m_num := 5, m_den := 1 } []).2.2⟩

/-! ### Capacity of the array -/

/-- A call on a well-formed state leaves a well-formed state, and the new capacity is the
old one or, for an `add` on a full array, twice the old one. -/
theorem modern_dyn_int_array.call_spec (s : modern_dyn_int_array)
    (c : modern_dyn_int_array.Call) (hwf : s.WellFormed) :
    ∃ s', (s.call c).state = some s' ∧ s'.WellFormed ∧
      (s'.m_cap = s.m_cap ∨ s'.m_cap = 2 * s.m_cap) := by
  cases c with
  | add i e =>
    by_cases hi : i ≤ s.m_size
    · obtain ⟨arr, ha, -⟩ := modern_dyn_int_array.add_spec s i e hwf hi
      refine ⟨_, by simp only [modern_dyn_int_array.call, ha, Outcome.state],
        modern_dyn_int_array.add_wellFormed s _ i e hwf hi ha, ?_⟩
      dsimp only
      split_ifs
      · exact Or.inr rfl
      · exact Or.inl rfl
    · have hg : ¬ i < s.m_size + 1 := by omega
      exact ⟨s, by simp only [modern_dyn_int_array.call, modern_dyn_int_array.add, hg,
        if_false, Outcome.state], hwf, Or.inl rfl⟩
  | remove i =>
    by_cases hi : i < s.m_size
    · obtain ⟨arr, ha, -⟩ := modern_dyn_int_array.remove_spec s i hwf hi
      exact ⟨_, by simp only [modern_dyn_int_array.call, ha, Outcome.state],
        modern_dyn_int_array.remove_wellFormed s _ i hwf hi ha, Or.inl rfl⟩
    · exact ⟨s, by simp only [modern_dyn_int_array.call, modern_dyn_int_array.remove, hi,
        if_false, Outcome.state], hwf, Or.inl rfl⟩

/-- Sequences of calls keep the representation invariant and every property of the
state that single calls keep. -/
theorem modern_dyn_int_array.run_calls_invariant (P : modern_dyn_int_array → Prop)
    (hstep : ∀ (s s' : modern_dyn_int_array) (c : modern_dyn_int_array.Call),
      s.WellFormed → P s → (s.call c).state = some s' → P s') :
    ∀ (cs : List modern_dyn_int_array.Call) (s : modern_dyn_int_array),
      s.WellFormed → P s → ∃ s', s.run_calls cs = some s' ∧ s'.WellFormed ∧ P s' := by
  intro cs
  induction cs with
  | nil => exact fun s hwf hp => ⟨s, rfl, hwf, hp⟩
  | cons c cs ih =>
    intro s hwf hp
    obtain ⟨s1, h1, hwf1, -⟩ := modern_dyn_int_array.call_spec s c hwf
    obtain ⟨s', h', hwf', hp'⟩ := ih s1 hwf1 (hstep s s1 c hwf hp h1)
    exact ⟨s', by simp only [modern_dyn_int_array.run_calls, h1, h'], hwf', hp'⟩

/-- Every sequence of calls after the constructor is defined, and every reachable state
satisfies the representation invariant and each property that the constructor
establishes and single calls keep. -/
theorem modern_dyn_int_array.after_calls_invariant (P : modern_dyn_int_array → Prop)
    (hinit : P (modern_dyn_int_array.mk 10 0 (List.replicate 10 0)))
    (hstep : ∀ (s s' : modern_dyn_int_array) (c : modern_dyn_int_array.Call),
      s.WellFormed → P s → (s.call c).state = some s' → P s')
    (cs : List modern_dyn_int_array.Call) :
    ∃ s, modern_dyn_int_array.after_calls cs = some s ∧ s.WellFormed ∧ P s := by
  obtain ⟨s, hs, hwf, hp⟩ := modern_dyn_int_array.run_calls_invariant P hstep cs _
    modern_dyn_int_array.ctor_wellFormed hinit
  exact ⟨s, by simp only [modern_dyn_int_array.after_calls, modern_dyn_int_array.ctor_eq,
    Outcome.state, hs], hwf, hp⟩

/-- Reachable states satisfy the representation invariant. -/
theorem modern_dyn_int_array.Reachable.wellFormed {s : modern_dyn_int_array}
    (h : s.Reachable) : s.WellFormed := by
  obtain ⟨cs, hcs⟩ := h
  obtain ⟨s', hs', hwf, -⟩ := modern_dyn_int_array.after_calls_invariant (fun _ => True)
    trivial (fun _ _ _ _ _ _ => trivial) cs
  rw [hcs] at hs'
  injection hs' with hs'
  exact hs' ▸ hwf

/-- The capacity of a reachable state is ten times a power of two. -/
theorem modern_dyn_int_array.Reachable.cap_eq {s : modern_dyn_int_array}
    (h : s.Reachable) : ∃ k, s.m_cap = 10 * 2 ^ k := by
  obtain ⟨cs, hcs⟩ := h
  obtain ⟨s', hs', -, hp⟩ := modern_dyn_int_array.after_calls_invariant
    (fun s => ∃ k, s.m_cap = 10 * 2 ^ k) ⟨0, rfl⟩
    (fun s s1 c hwf hp h1 => by
      obtain ⟨k, hk⟩ := hp
      obtain ⟨s2, h2, -, hcap⟩ := modern_dyn_int_array.call_spec s c hwf
      rw [h1] at h2
      injection h2 with h2
      subst h2
      rcases hcap with hcap | hcap
      · exact ⟨k, by rw [hcap, hk]⟩
      · exact ⟨k + 1, by rw [hcap, hk, pow_succ]; ring⟩) cs
  rw [hcs] at hs'
  injection hs' with hs'
  exact hs' ▸ hp

/-- C12: the array grows by doubling. The constructor returns an array of size 0 and
capacity 10; on every reachable state `add(i, e)` with a valid index returns with the
capacity doubled exactly when size equalled capacity before the call and unchanged
otherwise; `remove` leaves the capacity as it was, whether it returns or raises; hence
the capacity of every reachable state is `10 * 2 ^ k` for some `k`. -/
theorem modern_dyn_int_array.grows_by_doubling :
    (∃ s0, modern_dyn_int_array.ctor = Outcome.returned s0 ∧ s0.size = 0 ∧ s0.m_cap = 10) ∧
    (∀ (s : modern_dyn_int_array) (i : Nat) (e : Int), s.Reachable → i ≤ s.size →
      ∃ s', s.add i e = Outcome.returned s' ∧
        (s.m_size = s.m_cap → s'.m_cap = 2 * s.m_cap) ∧
        (s.m_size ≠ s.m_cap → s'.m_cap = s.m_cap)) ∧
    (∀ (s : modern_dyn_int_array) (i : Nat), s.Reachable →
      ∃ s', (s.remove i).state = some s' ∧ s'.m_cap = s.m_cap) ∧
    (∀ s : modern_dyn_int_array, s.Reachable → ∃ k, s.m_cap = 10 * 2 ^ k) := by
  refine ⟨⟨_, modern_dyn_int_array.ctor_eq, rfl, rfl⟩, ?_, ?_, fun s h => h.cap_eq⟩
  · intro s i e hr hi
    obtain ⟨arr, ha, -⟩ := modern_dyn_int_array.add_spec s i e hr.wellFormed hi
    exact ⟨_, ha, fun h => by simp [h], fun h => by simp [h]⟩
  · intro s i hr
    by_cases hi : i < s.m_size
    · obtain ⟨arr, ha, -⟩ := modern_dyn_int_array.remove_spec s i hr.wellFormed hi
      exact ⟨{ m_cap := s.m_cap, m_size := s.m_size - 1, m_arr := arr },
        by simp only [ha, Outcome.state], rfl⟩
    · exact ⟨s, by simp only [modern_dyn_int_array.remove, hi, if_false, Outcome.state], rfl⟩

/-- C12, at the full array reached by ten `add` calls, size 10 and capacity 10:
`add(10, 10)` on it returns with the capacity doubled to 20, and the state it returns is
reachable with capacity `10 * 2 ^ 1`; `remove(3)` on the full array returns with the
capacity still 10, and `remove(10)`, which raises, leaves it at 10 too. On the array
after one `add`, which is not full, a further `add` keeps the capacity 10. -/
theorem modern_dyn_int_array.grows_by_doubling_witness :
    (modern_dyn_int_array.mk 10 10 [0, 1, 2, 3, 4, 5, 6, 7, 8, 9]).Reachable ∧
    (∃ s', (modern_dyn_int_array.mk 10 10 [0, 1, 2, 3, 4, 5, 6, 7, 8, 9]).add 10 10 =
        Outcome.returned s' ∧ s'.m_cap = 20) ∧
    (∃ s', ((modern_dyn_int_array.mk 10 10 [0, 1, 2, 3, 4, 5, 6, 7, 8, 9]).remove 3).state =
        some s' ∧ s'.m_cap = 10) ∧
    (∃ s', ((modern_dyn_int_array.mk 10 10 [0, 1, 2, 3, 4, 5, 6, 7, 8, 9]).remove 10).state =
        some s' ∧ s'.m_cap = 10) ∧
    (modern_dyn_int_array.mk 20 11
      [0, 1, 2, 3, 4, 5, 6, 7, 8, 9, 10, 0, 0, 0, 0, 0, 0, 0, 0, 0]).Reachable ∧
    (∃ k, (modern_dyn_int_array.mk 20 11
      [0, 1, 2, 3, 4, 5, 6, 7, 8, 9, 10, 0, 0, 0, 0, 0, 0, 0, 0, 0]).m_cap = 10 * 2 ^ k) ∧
    (modern_dyn_int_array.mk 10 1 [7, 0, 0, 0, 0, 0, 0, 0, 0, 0]).Reachable ∧
    (∃ s', (modern_dyn_int_array.mk 10 1 [7, 0, 0, 0, 0, 0, 0, 0, 0, 0]).add 1 8 =
        Outcome.returned s' ∧ s'.m_cap = 10) := by
  have hfull : (modern_dyn_int_array.mk 10 10 [0, 1, 2, 3, 4, 5, 6, 7, 8, 9]).Reachable :=
    ⟨[modern_dyn_int_array.Call.add 0 9, modern_dyn_int_array.Call.add 0 8,
      modern_dyn_int_array.Call.add 0 7, modern_dyn_int_array.Call.add 0 6,
      modern_dyn_int_array.Call.add 0 5, modern_dyn_int_array.Call.add 0 4,
      modern_dyn_int_array.Call.add 0 3, modern_dyn_int_array.Call.add 0 2,
      modern_dyn_int_array.Call.add 0 1, modern_dyn_int_array.Call.add 0 0], by
      simp [modern_dyn_int_array.after_calls, modern_dyn_int_array.ctor_eq, Outcome.state,
        modern_dyn_int_array.run_calls, modern_dyn_int_array.call, modern_dyn_int_array.add,
        modern_dyn_int_array.add_block, modern_dyn_int_array.add_loop,
        modern_dyn_int_array.store, modern_dyn_int_array.load, Outcome.ofDefined]⟩
  have hgrown : (modern_dyn_int_array.mk 20 11
      [0, 1, 2, 3, 4, 5, 6, 7, 8, 9, 10, 0, 0, 0, 0, 0, 0, 0, 0, 0]).Reachable :=
    ⟨[modern_dyn_int_array.Call.add 0 9, modern_dyn_int_array.Call.add 0 8,
      modern_dyn_int_array.Call.add 0 7, modern_dyn_int_array.Call.add 0 6,
      modern_dyn_int_array.Call.add 0 5, modern_dyn_int_array.Call.add 0 4,
      modern_dyn_int_array.Call.add 0 3, modern_dyn_int_array.Call.add 0 2,
      modern_dyn_int_array.Call.add 0 1, modern_dyn_int_array.Call.add 0 0,
      modern_dyn_int_array.Call.add 10 10], by
      simp [modern_dyn_int_array.after_calls, modern_dyn_int_array.ctor_eq, Outcome.state,
        modern_dyn_int_array.run_calls, modern_dyn_int_array.call, modern_dyn_int_array.add,
        modern_dyn_int_array.add_block, modern_dyn_int_array.add_loop,
        modern_dyn_int_array.resize, modern_dyn_int_array.resize_loop,
        modern_dyn_int_array.store, modern_dyn_int_array.load, Outcome.ofDefined]⟩
  have hone : (modern_dyn_int_array.mk 10 1 [7, 0, 0, 0, 0, 0, 0, 0, 0, 0]).Reachable :=
    ⟨[modern_dyn_int_array.Call.add 0 7], by
      simp [modern_dyn_int_array.after_calls, modern_dyn_int_array.ctor_eq, Outcome.state,
        modern_dyn_int_array.run_calls, modern_dyn_int_array.call, modern_dyn_int_array.add,
        modern_dyn_int_array.add_block, modern_dyn_int_array.add_loop,
        modern_dyn_int_array.store, modern_dyn_int_array.load, Outcome.ofDefined]⟩
  obtain ⟨s1, hs1, hdouble, -⟩ :=
    modern_dyn_int_array.grows_by_doubling.2.1 _ 10 10 hfull (by decide)
  obtain ⟨s2, hs2, -, hkeep⟩ :=
    modern_dyn_int_array.grows_by_doubling.2.1 _ 1 8 hone (by decide)
  exact ⟨hfull, ⟨s1, hs1, hdouble rfl⟩,
    modern_dyn_int_array.grows_by_doubling.2.2.1 _ 3 hfull,
    modern_dyn_int_array.grows_by_doubling.2.2.1 _ 10 hfull,
    hgrown, modern_dyn_int_array.grows_by_doubling.2.2.2 _ hgrown,
    hone, ⟨s2, hs2, hkeep (by decide)⟩⟩

/-! ### The stack of data transforms -/

/-- With its index inside the vector, `forward` is defined, keeps the length of the
data, keeps the index, and `backward` on what it returns restores the data. -/
theorem DataTransform.forward_backward (t : DataTransform) (v : List Int)
    (h : t.InRange v.length) :
    ∃ t1 v1, t.forward v = some (t1, v1) ∧ v1.length = v.length ∧
      t1.m_name = t.m_name ∧ (∀ n, t1.InRange n ↔ t.InRange n) ∧
      t1.backward v1 = some (t1, v) := by
  cases t with
  | ReverseTransform m_name =>
    exact ⟨_, _, rfl, by simp, rfl, fun n => Iff.rfl,
      by simp [DataTransform.backward]⟩
  | SubstituteTransform m_name m_i m_v m_o =>
    have hi : m_i < v.length := h
    refine ⟨DataTransform.SubstituteTransform m_name m_i m_v (some (v.get ⟨m_i, hi⟩)),
      v.set m_i m_v, ?_, by simp, rfl, fun n => Iff.rfl, ?_⟩
    · simp [DataTransform.forward, List.getElem?_eq_getElem hi]
    · have hset : v.set m_i (v.get ⟨m_i, hi⟩) = v := by
        apply List.ext_getElem?
        intro k
        rw [List.getElem?_set]
        by_cases hk : m_i = k
        · subst hk
          simp [hi]
        · simp [hk]
      simp only [DataTransform.backward, List.length_set, hi, if_true, List.set_set, hset]

/-- Applying a list of in-range transforms in order and undoing them in reverse order
is defined and restores the data; the output gets one line per call. -/
theorem apply_loop_undo_loop (ts : List DataTransform) :
    ∀ (v : List Int) (cout : List String), (∀ t ∈ ts, t.InRange v.length) →
      ∃ cout1 ts1 v1, apply_loop ts cout v = some (cout1, ts1, v1) ∧
        v1.length = v.length ∧
        ∀ cout2, ∃ cout3, undo_loop ts1 cout2 v1 = some (cout3, ts1, v) := by
  induction ts with
  | nil =>
    intro v cout _
    exact ⟨cout, [], v, rfl, rfl, fun cout2 => ⟨cout2, rfl⟩⟩
  | cons t ts ih =>
    intro v cout h
    obtain ⟨t1, v1, hf, hlen, -, -, hb⟩ :=
      DataTransform.forward_backward t v (h t (List.mem_cons_self _ _))
    obtain ⟨cout1, ts1, v2, ha, hlen2, hu⟩ := ih v1 (cout ++ ["Applying: " ++ t.m_name])
      (fun x hx => by rw [hlen]; exact h x (List.mem_cons_of_mem _ hx))
    refine ⟨cout1, t1 :: ts1, v2, ?_, by rw [hlen2, hlen], fun cout2 => ?_⟩
    · simp only [apply_loop, DataTransform.apply, hf, ha]
    · obtain ⟨cout3, hu3⟩ := hu cout2
      exact ⟨cout3 ++ ["Undoing: " ++ t1.m_name],
        by simp only [undo_loop, hu3, DataTransform.undo, hb]⟩

/-- C13: undoing a stack of data transforms restores the data. For every vector `v` and
every list of transform objects, each a `ReverseTransform` or a `SubstituteTransform`
whose index is below the size of `v`, calling `apply` on each in list order is defined,
and calling `undo` on each in reverse order afterwards is defined and leaves the vector
equal to `v`. The objects of the list are distinct by construction: each list element
carries its own members. -/
theorem undo_restores_data (v : List Int) (transforms : List DataTransform)
    (cout : List String) (h : ∀ t ∈ transforms, t.InRange v.length) :
    ∃ cout1 transforms1 v1, apply_loop transforms cout v = some (cout1, transforms1, v1) ∧
      ∃ cout2 transforms2, undo_loop transforms1 cout1 v1 = some (cout2, transforms2, v) := by
  obtain ⟨cout1, ts1, v1, ha, -, hu⟩ := apply_loop_undo_loop transforms v cout h
  obtain ⟨cout3, hu3⟩ := hu cout1
  exact ⟨cout1, ts1, v1, ha, cout3, ts1, hu3⟩

/-- C13, at the test of `main`: the vector `0..9` under Reverse, Substitute(1, -1),
Substitute(8, -8), Reverse. -/
theorem undo_restores_data_witness :
    (∀ t ∈ [ReverseTransform.ctor, SubstituteTransform.ctor 1 (-1),
        SubstituteTransform.ctor 8 (-8), ReverseTransform.ctor],
      t.InRange ([0, 1, 2, 3, 4, 5, 6, 7, 8, 9] : List Int).length) ∧
    ∃ cout1 transforms1 v1,
      apply_loop [ReverseTransform.ctor, SubstituteTransform.ctor 1 (-1),
        SubstituteTransform.ctor 8 (-8), ReverseTransform.ctor] []
        [0, 1, 2, 3, 4, 5, 6, 7, 8, 9] = some (cout1, transforms1, v1) ∧
      ∃ cout2 transforms2, undo_loop transforms1 cout1 v1 =
        some (cout2, transforms2, [0, 1, 2, 3, 4, 5, 6, 7, 8, 9]) :=
  ⟨by decide, undo_restores_data [0, 1, 2, 3, 4, 5, 6, 7, 8, 9] _ [] (by decide)⟩

/-! ### The assertion helpers -/

/-- The loop of `pow_two` multiplies the accumulator by the remaining power of two,
modulo `2 ^ 64`. -/
theorem Week08.pow_two_loop_eq (_n : Nat) :
    ∀ (k i x : Nat), k = _n - i → i ≤ _n →
      Week08.pow_two_loop _n i x = if k = 0 then x else x * 2 ^ k % 2 ^ 64 := by
  intro k
  induction k with
  | zero =>
    intro i x hk hi
    have : ¬ i < _n := by omega
    rw [Week08.pow_two_loop, if_neg this]
    simp
  | succ k ih =>
    intro i x hk hi
    have hlt : i < _n := by omega
    rw [Week08.pow_two_loop, if_pos hlt, ih (i + 1) _ (by omega) (by omega)]
    rw [if_neg (Nat.succ_ne_zero k)]
    by_cases hk0 : k = 0
    · subst hk0
      simp
    · rw [if_neg hk0, Nat.mod_mul_mod, pow_succ]
      congr 1
      ring

/-- C15: `pow_two(n)` returns `2 ^ n` computed in 64-bit `size_t` arithmetic. For every
`n` the result is `2 ^ n mod 2 ^ 64`; for every `n < 64` it is exactly `2 ^ n`; for
`n >= 64` it is 0. -/
theorem Week08.pow_two_spec (n : Nat) :
    Week08.pow_two n = 2 ^ n % 2 ^ 64 ∧
    (n < 64 → Week08.pow_two n = 2 ^ n) ∧
    (64 ≤ n → Week08.pow_two n = 0) := by
  have hmod : Week08.pow_two n = 2 ^ n % 2 ^ 64 := by
    rw [Week08.pow_two, Week08.pow_two_loop_eq n n 0 1 rfl (Nat.zero_le n)]
    by_cases h : n = 0
    · subst h
      simp
    · rw [if_neg h, one_mul]
  refine ⟨hmod, fun h => ?_, fun h => ?_⟩
  · rw [hmod]
    exact Nat.mod_eq_of_lt (Nat.pow_lt_pow_right (by decide) h)
  · rw [hmod]
    exact Nat.mod_eq_zero_of_dvd (Nat.pow_dvd_pow 2 h)

/-- C15, at the test's `pow_two(10)`, which is 1024, and at `pow_two(64)`, which is 0. -/
theorem Week08.pow_two_spec_witness :
    Week08.pow_two 10 = 1024 ∧ Week08.pow_two 64 = 0 :=
  ⟨(Week08.pow_two_spec 10).2.1 (by decide), (Week08.pow_two_spec 64).2.2 (by decide)⟩

/-! ### `add_cpp` and `add_c` -/

/-- C16: `add_cpp` returns the sum of its arguments. `add_cpp()` is 0, and for every
list of `long long` arguments `a1, ..., ak` (over unbounded integers),
`add_cpp(a1, ..., ak) = a1 + ... + ak`. -/
theorem add_cpp_sum (args : List Int) :
    add_cpp [] = 0 ∧ add_cpp args = args.sum := by
  refine ⟨rfl, ?_⟩
  induction args with
  | nil => rfl
  | cons a args ih => simp [add_cpp, ih]

/-- C16, at the test's `add_cpp(100, 200, 300)`, which is 600. -/
theorem add_cpp_sum_witness : add_cpp [100, 200, 300] = 600 := by
  rw [(add_cpp_sum [100, 200, 300]).2]
  decide

/-- Converting to `int` after each addition is converting the whole sum once. -/
theorem long_long_to_int_add (s a : Int) :
    long_long_to_int (long_long_to_int s + a) = long_long_to_int (s + a) := by
  unfold long_long_to_int
  norm_num
  omega

/-- The loop of `add_c` on `long long` arguments. -/
theorem add_c_loop_eq (args : List Int) : ∀ (i : Nat) (sum : Int),
    add_c_loop (i + args.length) i (args.map VaArg.long_long) (long_long_to_int sum) =
      some (long_long_to_int (sum + args.sum)) := by
  induction args with
  | nil =>
    intro i sum
    rw [add_c_loop]
    simp
  | cons a args ih =>
    intro i sum
    have hlt : i < i + (a :: args).length := by simp
    have hlen : i + (a :: args).length = (i + 1) + args.length := by
      simp only [List.length_cons]; omega
    rw [add_c_loop, if_pos hlt]
    simp only [List.map_cons, va_arg_long_long]
    rw [hlen, long_long_to_int_add, ih (i + 1) (sum + a), List.sum_cons, add_assoc]

/-- C17, evaluated: `add_c` accumulates in an `int`. On `k` arguments of type
`long long` it is defined and returns their sum converted to `int`, that is, reduced
modulo `2 ^ 32` into the range of `int`. At `add_c(1, 2147483648LL)` it returns
`-2147483648`, where the sum and `add_cpp(2147483648LL)` are `2147483648`; at the
values of the test, `(100, 200, 300)`, it returns 600. -/
theorem add_c_accumulates_in_int :
    (∀ args : List Int,
      add_c args.length (args.map VaArg.long_long) = some (long_long_to_int args.sum)) ∧
    add_c 1 [VaArg.long_long 2147483648] = some (-2147483648) ∧
    add_cpp [2147483648] = 2147483648 ∧
    add_c 3 [VaArg.long_long 100, VaArg.long_long 200, VaArg.long_long 300] = some 600 := by
  have hgen : ∀ args : List Int,
      add_c args.length (args.map VaArg.long_long) = some (long_long_to_int args.sum) := by
    intro args
    have h := add_c_loop_eq args 0 0
    have h0 : long_long_to_int 0 = 0 := by decide
    rw [h0, Nat.zero_add, Int.zero_add] at h
    exact h
  refine ⟨hgen, ?_, by decide, ?_⟩
  · have h := hgen [2147483648]
    simpa [long_long_to_int] using h
  · have h := hgen [100, 200, 300]
    simpa [long_long_to_int] using h

/-! ### The Fibonacci functions -/

/-- The recursion of `fibonacci11`, unfolded once. -/
theorem fibonacci11_unfold (n : Nat) :
    fibonacci11 n = if n = 0 then 0 else if n ≤ 2 then 1
      else (fibonacci11 (n - 1) + fibonacci11 (n - 2)) % 2 ^ 64 := by
  rw [fibonacci11]
  split_ifs <;> rfl

/-- The function `fibonacci11` computes the Fibonacci numbers modulo `2 ^ 64`. -/
theorem fibonacci11_eq (n : Nat) : fibonacci11 n = Nat.fib n % 2 ^ 64 := by
  induction n using Nat.strong_induction_on with
  | _ n ih =>
    rw [fibonacci11_unfold]
    by_cases h0 : n = 0
    · subst h0
      rfl
    · rw [if_neg h0]
      by_cases h2 : n ≤ 2
      · rw [if_pos h2]
        have h12 : n = 1 ∨ n = 2 := by omega
        rcases h12 with rfl | rfl <;> rfl
      · rw [if_neg h2, ih (n - 1) (by omega), ih (n - 2) (by omega), ← Nat.add_mod]
        obtain ⟨m, rfl⟩ : ∃ m, n = m + 2 := ⟨n - 2, by omega⟩
        rw [Nat.fib_add_two, Nat.add_sub_cancel, show m + 2 - 1 = m + 1 by omega, add_comm]

/-- The largest Fibonacci number below `2 ^ 64` is the 93rd. -/
theorem fib_lt_of_le_93 (n : Nat) (h : n ≤ 93) : Nat.fib n < 2 ^ 64 :=
  lt_of_le_of_lt (Nat.fib_mono h) (by decide)

/-- The iterative loop, entered with the values for `i`, ends with the value for `n`. -/
theorem fibonacci03_loop_eq (n : Nat) :
    ∀ (k i f2 f1 f : Nat), k = n - i → 1 ≤ i → i ≤ n →
      f1 = Nat.fib (i - 1) % 2 ^ 64 → f = Nat.fib i % 2 ^ 64 →
      fibonacci03_loop n i f2 f1 f = Nat.fib n % 2 ^ 64 := by
  intro k
  induction k with
  | zero =>
    intro i f2 f1 f hk _ hi _ hf
    have hnlt : ¬ i < n := by omega
    have hin : i = n := by omega
    rw [fibonacci03_loop, if_neg hnlt, hf, hin]
  | succ k ih =>
    intro i f2 f1 f hk h1 hi hf1 hf
    have hlt : i < n := by omega
    rw [fibonacci03_loop, if_pos hlt]
    apply ih (i + 1) _ _ _ (by omega) (by omega) (by omega)
    · rw [Nat.add_sub_cancel, hf]
    · obtain ⟨m, rfl⟩ : ∃ m, i = m + 1 := ⟨i - 1, by omega⟩
      rw [hf, hf1, ← Nat.add_mod, Nat.add_sub_cancel, Nat.fib_add_two, add_comm]

/-- The loop of `fibonacci14` is the loop of `fibonacci03`. -/
theorem fibonacci14_loop_eq (n : Nat) :
    ∀ (k i f2 f1 f : Nat), k = n - i →
      fibonacci14_loop n i f2 f1 f = fibonacci03_loop n i f2 f1 f := by
  intro k
  induction k with
  | zero =>
    intro i f2 f1 f hk
    have hnlt : ¬ i < n := by omega
    rw [fibonacci14_loop, fibonacci03_loop, if_neg hnlt, if_neg hnlt]
  | succ k ih =>
    intro i f2 f1 f hk
    have hlt : i < n := by omega
    rw [fibonacci14_loop, fibonacci03_loop, if_pos hlt, if_pos hlt]
    exact ih (i + 1) _ _ _ (by omega)

/-- From 3 on the iterative `fibonacci03` computes the Fibonacci numbers modulo
`2 ^ 64`. -/
theorem fibonacci03_eq (n : Nat) (h : 3 ≤ n) : fibonacci03 n = Nat.fib n % 2 ^ 64 := by
  have h0 : n ≠ 0 := by omega
  have h2 : ¬ n ≤ 2 := by omega
  rw [fibonacci03, if_neg h0, if_neg h2]
  exact fibonacci03_loop_eq n (n - 2) 2 0 1 1 rfl (by omega) (by omega) rfl rfl

/-- From 3 on the iterative `fibonacci14` computes the Fibonacci numbers modulo
`2 ^ 64`. -/
theorem fibonacci14_eq (n : Nat) (h : 3 ≤ n) : fibonacci14 n = Nat.fib n % 2 ^ 64 := by
  have h0 : n ≠ 0 := by omega
  have h2 : ¬ n ≤ 2 := by omega
  rw [fibonacci14, if_neg h0, if_neg h2, fibonacci14_loop_eq n (n - 2) 2 0 1 1 rfl]
  exact fibonacci03_loop_eq n (n - 2) 2 0 1 1 rfl (by omega) (by omega) rfl rfl

/-- C18 as stated fails at `n = 94`: in `size_t` arithmetic `fibonacci11(94)` is
`1293530146158671551`, which is neither `fibonacci11(93) + fibonacci11(92)` nor the 94th
Fibonacci number `19740274219868223167`. -/
theorem fibonacci11_overflows_at_94 :
    fibonacci11 94 = 1293530146158671551 ∧
    fibonacci11 94 ≠ fibonacci11 93 + fibonacci11 92 ∧
    fibonacci11 94 ≠ Nat.fib 94 := by
  simp only [fibonacci11_eq]
  decide

/-- C18, amended: `fibonacci11` computes the Fibonacci numbers in 64-bit arithmetic. The
recursion is a total function; `fibonacci11(0) = 0`, `fibonacci11(1) = fibonacci11(2) = 1`,
and for every `n >= 3`, `fibonacci11(n)` is `fibonacci11(n-1) + fibonacci11(n-2)` modulo
`2 ^ 64`; so `fibonacci11(n)` is `F(n)` modulo `2 ^ 64` for every `n`, and exactly `F(n)`
for every `n <= 93`. -/
theorem fibonacci11_spec (n : Nat) :
    fibonacci11 0 = 0 ∧ fibonacci11 1 = 1 ∧ fibonacci11 2 = 1 ∧
    (3 ≤ n → fibonacci11 n = (fibonacci11 (n - 1) + fibonacci11 (n - 2)) % 2 ^ 64) ∧
    fibonacci11 n = Nat.fib n % 2 ^ 64 ∧
    (n ≤ 93 → fibonacci11 n = Nat.fib n) := by
  refine ⟨by rw [fibonacci11_unfold]; rfl, by rw [fibonacci11_unfold]; rfl,
    by rw [fibonacci11_unfold]; rfl, fun h => ?_, fibonacci11_eq n, fun h => ?_⟩
  · have h0 : n ≠ 0 := by omega
    have h2 : ¬ n ≤ 2 := by omega
    rw [fibonacci11_unfold n, if_neg h0, if_neg h2]
  · rw [fibonacci11_eq, Nat.mod_eq_of_lt (fib_lt_of_le_93 n h)]

/-- C18, at the witness `fibonacci11(10) = 55`. -/
theorem fibonacci11_spec_witness :
    (3 : Nat) ≤ 10 ∧ (10 : Nat) ≤ 93 ∧
    fibonacci11 10 = (fibonacci11 9 + fibonacci11 8) % 2 ^ 64 ∧
    fibonacci11 10 = 55 := by
  have h := fibonacci11_spec 10
  refine ⟨by decide, by decide, h.2.2.2.1 (by decide), ?_⟩
  rw [h.2.2.2.2.2 (by decide)]
  decide

/-- C19, evaluated: the iterative functions return 0 at 1 and 2. `fibonacci03(1)`,
`fibonacci03(2)`, `fibonacci14(1)` and `fibonacci14(2)` are 0 where `fibonacci11(1)` and
`fibonacci11(2)` are 1; at 0 and from 3 on the three functions agree, and all give 55 at
10. -/
theorem fibonacci03_14_wrong_at_1_2 :
    fibonacci03 1 = 0 ∧ fibonacci03 2 = 0 ∧ fibonacci14 1 = 0 ∧ fibonacci14 2 = 0 ∧
    fibonacci11 1 = 1 ∧ fibonacci11 2 = 1 ∧
    fibonacci03 0 = fibonacci11 0 ∧ fibonacci14 0 = fibonacci11 0 ∧
    (∀ n, fibonacci03 (n + 3) = fibonacci11 (n + 3)) ∧
    (∀ n, fibonacci14 (n + 3) = fibonacci11 (n + 3)) ∧
    fibonacci03 10 = 55 ∧ fibonacci14 10 = 55 ∧ fibonacci11 10 = 55 := by
  refine ⟨by decide, by decide, by decide, by decide, by rw [fibonacci11_unfold]; rfl,
    by rw [fibonacci11_unfold]; rfl, by rw [fibonacci11_unfold]; rfl,
    by rw [fibonacci11_unfold]; rfl, fun n => ?_, fun n => ?_, ?_, ?_, ?_⟩
  · rw [fibonacci03_eq _ (by omega), fibonacci11_eq]
  · rw [fibonacci14_eq _ (by omega), fibonacci11_eq]
  · rw [fibonacci03_eq _ (by decide)]; decide
  · rw [fibonacci14_eq _ (by decide)]; decide
  · rw [fibonacci11_eq]; decide

/-! ### `logged_map` -/

/-- Every call appends its own line to the log. -/
theorem logged_map.call_log {K V : Type} [DecidableEq K] [Inhabited V]
    (s : logged_map K V) (c : logged_map.Call K V) :
    (s.call c).m_log = s.m_log ++ [c.log_line] := by
  cases c <;> rfl

/-- A sequence of calls appends the lines of the calls, in order. -/
theorem logged_map.run_calls_log {K V : Type} [DecidableEq K] [Inhabited V]
    (cs : List (logged_map.Call K V)) : ∀ s : logged_map K V,
    (s.run_calls cs).m_log = s.m_log ++ cs.map logged_map.Call.log_line := by
  induction cs with
  | nil => intro s; simp [logged_map.run_calls]
  | cons c cs ih =>
    intro s
    rw [logged_map.run_calls, ih, logged_map.call_log]
    simp

/-- C20: `logged_map` logs every operation. Starting from an empty log, with whatever
map contents, after any sequence of `insert`, `get` and `remove` calls the log consists
of exactly one line per call, in call order: `Insert.` for `insert`, `Lookup.` for `get`
and `Remove.` for `remove`, whatever the keys and values are and whether or not the key
was present. -/
theorem logged_map.logs_every_operation {K V : Type} [DecidableEq K] [Inhabited V]
    (m : List (K × V)) (cs : List (logged_map.Call K V)) :
    ((logged_map.mk m []).run_calls cs).m_log = cs.map logged_map.Call.log_line ∧
    ((logged_map.ctor K V).run_calls cs).m_log = cs.map logged_map.Call.log_line ∧
    ((logged_map.mk m []).run_calls cs).m_log.length = cs.length ∧
    (∀ (k : K) (v : V), (logged_map.Call.insert k v).log_line = "Insert.") ∧
    (∀ k : K, (logged_map.Call.get k : logged_map.Call K V).log_line = "Lookup.") ∧
    (∀ k : K, (logged_map.Call.remove k : logged_map.Call K V).log_line = "Remove.") := by
  have h := logged_map.run_calls_log cs (logged_map.mk m [])
  have h0 := logged_map.run_calls_log cs (logged_map.ctor K V)
  simp only [logged_map.ctor, List.nil_append] at h h0
  exact ⟨h, h0, by rw [h, List.length_map], fun _ _ => rfl, fun _ => rfl, fun _ => rfl⟩

/-- C20, at a sequence that inserts a key twice, looks up an absent key and removes a
present and an absent key. -/
theorem logged_map.logs_every_operation_witness :
    ((logged_map.ctor Nat Int).run_calls
      [logged_map.Call.insert 1 10, logged_map.Call.insert 1 20, logged_map.Call.get 2,
        logged_map.Call.remove 1, logged_map.Call.remove 5]).m_log =
      ["Insert.", "Insert.", "Lookup.", "Remove.", "Remove."] :=
  (logged_map.logs_every_operation ([] : List (Nat × Int))
    [logged_map.Call.insert 1 10, logged_map.Call.insert 1 20, logged_map.Call.get 2,
      logged_map.Call.remove 1, logged_map.Call.remove 5]).2.1

/-! ### Invariants and memory safety of the array -/

/-- A call on a well-formed state whose slots from `m_size` on hold 0 and whose capacity
is at least 10 leaves a state with the same two properties. -/
theorem modern_dyn_int_array.call_keeps_zero_tail (s s' : modern_dyn_int_array)
    (c : modern_dyn_int_array.Call) (hwf : s.WellFormed)
    (hp : 10 ≤ s.m_cap ∧ ∀ j, s.m_size ≤ j → j < s.m_cap → s.m_arr[j]? = some 0)
    (h : (s.call c).state = some s') :
    10 ≤ s'.m_cap ∧ ∀ j, s'.m_size ≤ j → j < s'.m_cap → s'.m_arr[j]? = some 0 := by
  obtain ⟨hcap, hzero⟩ := hp
  have hsz : s.m_size ≤ s.m_cap := hwf.2.1
  cases c with
  | add i e =>
    by_cases hi : i ≤ s.m_size
    · obtain ⟨arr, ha, -, hak⟩ := modern_dyn_int_array.add_spec s i e hwf hi
      simp only [modern_dyn_int_array.call, ha, Outcome.state, Option.some.injEq] at h
      subst h
      refine ⟨by dsimp only; split_ifs <;> omega, fun j hj1 hj2 => ?_⟩
      dsimp only at hj1 hj2 ⊢
      have h1 : j ≠ i := by omega
      have h2 : ¬ (i < j ∧ j ≤ s.m_size) := by omega
      rw [hak j, if_neg h1, if_neg h2]
      by_cases h3 : j < s.m_cap
      · rw [if_pos h3]
        exact hzero j (by omega) h3
      · rw [if_neg h3, if_pos hj2]
    · have hg : ¬ i < s.m_size + 1 := by omega
      simp only [modern_dyn_int_array.call, modern_dyn_int_array.add, hg, if_false,
        Outcome.state, Option.some.injEq] at h
      subst h
      exact ⟨hcap, hzero⟩
  | remove i =>
    by_cases hi : i < s.m_size
    · obtain ⟨arr, ha, -, hak⟩ := modern_dyn_int_array.remove_spec s i hwf hi
      simp only [modern_dyn_int_array.call, ha, Outcome.state, Option.some.injEq] at h
      subst h
      refine ⟨hcap, fun j hj1 hj2 => ?_⟩
      dsimp only at hj1 hj2 ⊢
      rw [hak j]
      by_cases h1 : j = s.m_size - 1
      · rw [if_pos h1]
      · have h2 : ¬ (i ≤ j ∧ j < s.m_size - 1) := by omega
        rw [if_neg h1, if_neg h2]
        exact hzero j (by omega) hj2
    · simp only [modern_dyn_int_array.call, modern_dyn_int_array.remove, hi, if_false,
        Outcome.state, Option.some.injEq] at h
      subst h
      exact ⟨hcap, hzero⟩

/-- The freshly constructed array is reachable. -/
theorem modern_dyn_int_array.reachable_fresh :
    (modern_dyn_int_array.mk 10 0 (List.replicate 10 0)).Reachable :=
  ⟨[], by simp only [modern_dyn_int_array.after_calls, modern_dyn_int_array.ctor_eq,
    Outcome.state, modern_dyn_int_array.run_calls]⟩

/-- C23: every state of `modern_dyn_int_array` reachable from the constructor by `add`
and `remove` calls, calls that raise included, satisfies `size <= capacity`,
`capacity >= 10`, and every slot at an index `j` with `size <= j < capacity` holds 0. -/
theorem modern_dyn_int_array.reachable_invariant (s : modern_dyn_int_array)
    (h : s.Reachable) :
    s.size ≤ s.m_cap ∧ 10 ≤ s.m_cap ∧
    ∀ j, s.size ≤ j → j < s.m_cap → s.subscript j = some 0 := by
  obtain ⟨cs, hcs⟩ := h
  obtain ⟨s', hs', hwf, hp⟩ := modern_dyn_int_array.after_calls_invariant
    (fun s => 10 ≤ s.m_cap ∧ ∀ j, s.m_size ≤ j → j < s.m_cap → s.m_arr[j]? = some 0)
    ⟨le_refl 10, fun j _ hj => by
      rw [List.getElem?_replicate, if_pos hj]⟩
    modern_dyn_int_array.call_keeps_zero_tail cs
  rw [hcs] at hs'
  injection hs' with hs'
  subst hs'
  exact ⟨hwf.2.1, hp.1, hp.2⟩

/-- C23, at the freshly constructed array and at the array after `add(0, 7)` and a
raising `remove(3)`. -/
theorem modern_dyn_int_array.reachable_invariant_witness :
    (modern_dyn_int_array.mk 10 0 (List.replicate 10 0)).Reachable ∧
    (modern_dyn_int_array.mk 10 0 (List.replicate 10 0)).size ≤ 10 ∧
    (∀ j, (modern_dyn_int_array.mk 10 0 (List.replicate 10 0)).size ≤ j → j < 10 →
      (modern_dyn_int_array.mk 10 0 (List.replicate 10 0)).subscript j = some 0) ∧
    (modern_dyn_int_array.mk 10 1 [7, 0, 0, 0, 0, 0, 0, 0, 0, 0]).Reachable ∧
    (∀ j, 1 ≤ j → j < 10 →
      (modern_dyn_int_array.mk 10 1 [7, 0, 0, 0, 0, 0, 0, 0, 0, 0]).subscript j =
        some 0) := by
  have h0 := modern_dyn_int_array.reachable_fresh
  have h1 : (modern_dyn_int_array.mk 10 1 [7, 0, 0, 0, 0, 0, 0, 0, 0, 0]).Reachable :=
    ⟨[modern_dyn_int_array.Call.add 0 7, modern_dyn_int_array.Call.remove 3], by
      simp [modern_dyn_int_array.after_calls, modern_dyn_int_array.ctor_eq, Outcome.state,
        modern_dyn_int_array.run_calls, modern_dyn_int_array.call, modern_dyn_int_array.add,
        modern_dyn_int_array.add_block, modern_dyn_int_array.add_loop,
        modern_dyn_int_array.store, modern_dyn_int_array.remove, Outcome.ofDefined]⟩
  exact ⟨h0, (modern_dyn_int_array.reachable_invariant _ h0).1,
    (modern_dyn_int_array.reachable_invariant _ h0).2.2, h1,
    (modern_dyn_int_array.reachable_invariant _ h1).2.2⟩

/-- C24: no operation of `modern_dyn_int_array` indexes outside its buffer. A checked
read or write is defined exactly when its index is strictly below the length of the
buffer it touches; the constructor is defined; and in every state reachable from the
constructor by `add` and `remove` the buffer has `m_cap` elements, `resize` to twice
the capacity is defined and yields a buffer of that many elements, and `add` and
`remove` never end in an access outside a buffer, whatever their arguments: every read
and write they and `resize` perform stays inside the buffer it touches. `add` with a
valid index writes at most at the old size, which is below the capacity it returns
with, and `remove` evaluates `m_size - 1` only when it does not raise, and then
`m_size >= 1`. -/
theorem modern_dyn_int_array.no_access_outside_buffer :
    (∀ (arr : List Int) (i : Nat),
      (modern_dyn_int_array.load arr i).isSome = true ↔ i < arr.length) ∧
    (∀ (arr : List Int) (i : Nat) (v : Int),
      (modern_dyn_int_array.store arr i v).isSome = true ↔ i < arr.length) ∧
    modern_dyn_int_array.ctor ≠ Outcome.undefined ∧
    (∀ s : modern_dyn_int_array, s.Reachable →
      s.m_arr.length = s.m_cap ∧
      (∃ s', s.resize (2 * s.m_cap) = some s' ∧ s'.m_arr.length = 2 * s.m_cap) ∧
      (∀ (i : Nat) (e : Int), s.add i e ≠ Outcome.undefined) ∧
      (∀ i : Nat, s.remove i ≠ Outcome.undefined) ∧
      (∀ (i : Nat) (e : Int), i ≤ s.size →
        ∃ s', s.add i e = Outcome.returned s' ∧ s.size < s'.m_cap ∧
          s'.m_arr.length = s'.m_cap) ∧
      (∀ i : Nat, (s.remove i).thrown = none → 1 ≤ s.m_size)) := by
  refine ⟨fun arr i => ?_, fun arr i v => ?_, ?_, fun s hr => ?_⟩
  · unfold modern_dyn_int_array.load
    by_cases h : i < arr.length
    · simp [List.getElem?_eq_getElem h, h]
    · simp [List.getElem?_eq_none (Nat.le_of_not_lt h), h]
  · unfold modern_dyn_int_array.store
    split_ifs with h <;> simp [h]
  · rw [modern_dyn_int_array.ctor_eq]
    exact fun h => Outcome.noConfusion h
  · have hwf := hr.wellFormed
    refine ⟨hwf.1, ?_, fun i e => ?_, fun i => ?_, fun i e hi => ?_, fun i h => ?_⟩
    · obtain ⟨r, hres, hrl, -⟩ := modern_dyn_int_array.resize_spec s (2 * s.m_cap) hwf.1
      exact ⟨_, hres, hrl⟩
    · by_cases hi : i ≤ s.m_size
      · obtain ⟨arr, ha, -⟩ := modern_dyn_int_array.add_spec s i e hwf hi
        rw [ha]
        exact fun h => Outcome.noConfusion h
      · have hg : ¬ i < s.m_size + 1 := by omega
        simp only [modern_dyn_int_array.add, hg, if_false]
        exact fun h => Outcome.noConfusion h
    · by_cases hi : i < s.m_size
      · obtain ⟨arr, ha, -⟩ := modern_dyn_int_array.remove_spec s i hwf hi
        rw [ha]
        exact fun h => Outcome.noConfusion h
      · simp only [modern_dyn_int_array.remove, hi, if_false]
        exact fun h => Outcome.noConfusion h
    · obtain ⟨arr, ha, hal, -⟩ := modern_dyn_int_array.add_spec s i e hwf hi
      have hsz : s.m_size ≤ s.m_cap := hwf.2.1
      have hpos : 0 < s.m_cap := hwf.2.2
      refine ⟨_, ha, ?_, hal⟩
      simp only [modern_dyn_int_array.size]
      split_ifs <;> omega
    · by_cases hi : i < s.m_size
      · omega
      · simp [modern_dyn_int_array.remove, hi, Outcome.thrown] at h

/-- C24, at the full array reached by ten `add` calls: `add(10, 10)` resizes, writes at
index 10 and returns with capacity 20; `remove(10)` raises without touching the buffer;
`remove(9)` does not raise, and the size is at least 1. -/
theorem modern_dyn_int_array.no_access_outside_buffer_witness :
    (modern_dyn_int_array.mk 10 10 [0, 1, 2, 3, 4, 5, 6, 7, 8, 9]).Reachable ∧
    (10 : Nat) ≤ (modern_dyn_int_array.mk 10 10 [0, 1, 2, 3, 4, 5, 6, 7, 8, 9]).size ∧
    (∃ s', (modern_dyn_int_array.mk 10 10 [0, 1, 2, 3, 4, 5, 6, 7, 8, 9]).add 10 10 =
        Outcome.returned s' ∧
      (modern_dyn_int_array.mk 10 10 [0, 1, 2, 3, 4, 5, 6, 7, 8, 9]).size < s'.m_cap ∧
      s'.m_arr.length = s'.m_cap) ∧
    (modern_dyn_int_array.mk 10 10 [0, 1, 2, 3, 4, 5, 6, 7, 8, 9]).remove 10 ≠
      Outcome.undefined ∧
    (((modern_dyn_int_array.mk 10 10 [0, 1, 2, 3, 4, 5, 6, 7, 8, 9]).remove 9).thrown =
        none →
      1 ≤ (modern_dyn_int_array.mk 10 10 [0, 1, 2, 3, 4, 5, 6, 7, 8, 9]).m_size) := by
  have hr : (modern_dyn_int_array.mk 10 10 [0, 1, 2, 3, 4, 5, 6, 7, 8, 9]).Reachable :=
    ⟨[modern_dyn_int_array.Call.add 0 9, modern_dyn_int_array.Call.add 0 8,
      modern_dyn_int_array.Call.add 0 7, modern_dyn_int_array.Call.add 0 6,
      modern_dyn_int_array.Call.add 0 5, modern_dyn_int_array.Call.add 0 4,
      modern_dyn_int_array.Call.add 0 3, modern_dyn_int_array.Call.add 0 2,
      modern_dyn_int_array.Call.add 0 1, modern_dyn_int_array.Call.add 0 0], by
      simp [modern_dyn_int_array.after_calls, modern_dyn_int_array.ctor_eq, Outcome.state,
        modern_dyn_int_array.run_calls, modern_dyn_int_array.call, modern_dyn_int_array.add,
        modern_dyn_int_array.add_block, modern_dyn_int_array.add_loop,
        modern_dyn_int_array.store, modern_dyn_int_array.load, Outcome.ofDefined]⟩
  have h := modern_dyn_int_array.no_access_outside_buffer.2.2.2 _ hr
  exact ⟨hr, by decide, h.2.2.2.2.1 10 10 (by decide), h.2.2.2.1 10, h.2.2.2.2.2 9⟩

/-! ### The modern test of `main` -/

/-- The logical contents of a well-formed state have `m_size` elements. -/
theorem modern_dyn_int_array.contents_length (s : modern_dyn_int_array) (hwf : s.WellFormed) :
    s.contents.length = s.m_size := by
  obtain ⟨hlen, hsz, -⟩ := hwf
  simp only [modern_dyn_int_array.contents, List.length_take]
  omega

/-- Below `m_size` the subscript reads the logical contents. -/
theorem modern_dyn_int_array.subscript_eq_contents (s : modern_dyn_int_array) (j : Nat)
    (hj : j < s.m_size) : s.subscript j = s.contents[j]? := by
  simp [modern_dyn_int_array.subscript, modern_dyn_int_array.load,
    modern_dyn_int_array.contents, List.getElem?_take, hj]

/-- The call `add` on a well-formed state with a valid index, on the logical contents. -/
theorem modern_dyn_int_array.add_contents (s : modern_dyn_int_array) (i : Nat) (e : Int)
    (hwf : s.WellFormed) (hi : i ≤ s.m_size) :
    ∃ s', s.add i e = Outcome.returned s' ∧ s'.WellFormed ∧ s'.m_size = s.m_size + 1 ∧
      s'.contents = s.contents.take i ++ e :: s.contents.drop i := by
  obtain ⟨arr, ha, hal, hak⟩ := modern_dyn_int_array.add_spec s i e hwf hi
  refine ⟨_, ha, modern_dyn_int_array.add_wellFormed s _ i e hwf hi ha, rfl, ?_⟩
  obtain ⟨hlen, hsz, hpos⟩ := hwf
  apply List.ext_getElem?
  intro k
  simp only [modern_dyn_int_array.contents, List.getElem?_take, List.getElem?_append,
    List.length_take, List.getElem?_cons, List.getElem?_drop, hak k]
  have hmin : min i (min s.m_size s.m_arr.length) = i := by omega
  rw [hmin]
  by_cases h1 : k = i
  · subst h1
    have h0 : k < s.m_size + 1 := by omega
    simp [h0]
  · by_cases h2 : k < i
    · have h3 : k < s.m_size + 1 := by omega
      have h4 : ¬ (i < k ∧ k ≤ s.m_size) := by omega
      have h5 : k < s.m_cap := by omega
      have h6 : k < s.m_size := by omega
      simp [h1, h2, h3, h4, h5, h6]
    · have h3 : k - i ≠ 0 := by omega
      have h7 : i + (k - i - 1) = k - 1 := by omega
      by_cases h4 : k ≤ s.m_size
      · have h5 : k < s.m_size + 1 := by omega
        have h6 : i < k ∧ k ≤ s.m_size := by omega
        have h8 : k - 1 < s.m_size := by omega
        simp [h1, h2, h3, h5, h6, h7, h8]
      · have h5 : ¬ k < s.m_size + 1 := by omega
        have h8 : ¬ k - 1 < s.m_size := by omega
        simp [h1, h2, h3, h5, h7, h8]

/-- The call `remove` on a well-formed state with a valid index, on the logical
contents. -/
theorem modern_dyn_int_array.remove_contents (s : modern_dyn_int_array) (i : Nat)
    (hwf : s.WellFormed) (hi : i < s.m_size) :
    ∃ s', s.remove i = Outcome.returned s' ∧ s'.WellFormed ∧ s'.m_size = s.m_size - 1 ∧
      s'.contents = s.contents.eraseIdx i := by
  obtain ⟨arr, ha, hal, hak⟩ := modern_dyn_int_array.remove_spec s i hwf hi
  refine ⟨_, ha, modern_dyn_int_array.remove_wellFormed s _ i hwf hi ha, rfl, ?_⟩
  obtain ⟨hlen, hsz, hpos⟩ := hwf
  apply List.ext_getElem?
  intro k
  simp only [modern_dyn_int_array.contents, List.getElem?_take, List.getElem?_eraseIdx,
    hak k]
  by_cases h1 : k < s.m_size - 1
  · have h2 : k ≠ s.m_size - 1 := by omega
    have h3 : k < s.m_size := by omega
    have h4 : k + 1 < s.m_size := by omega
    by_cases h5 : k < i
    · have h6 : ¬ (i ≤ k ∧ k < s.m_size - 1) := by omega
      simp [h1, h2, h3, h5, h6]
    · have h6 : i ≤ k ∧ k < s.m_size - 1 := by omega
      simp [h1, h2, h4, h5, h6]
  · have h3 : ¬ k + 1 < s.m_size := by omega
    have h5 : ¬ k < i := by omega
    simp [h1, h3, h5]

theorem ups_length (c : Nat) : ∀ i, (ups i c).length = c := by
  induction c with
  | zero => intro i; rfl
  | succ c ih => intro i; simp [ups, ih]

theorem downs_length (c : Nat) : ∀ i, (downs i c).length = c := by
  induction c with
  | zero => intro i; rfl
  | succ c ih => intro i; simp [downs, ih]

theorem interleaved_length (m : Nat) : (interleaved m).length = 2 * m := by
  induction m with
  | zero => rfl
  | succ m ih => simp [interleaved, ih]; omega

/-- Appending the next integer to a run of consecutive integers. -/
theorem ups_snoc (c : Nat) : ∀ i, ups i c ++ [((i + c : Nat) : Int)] = ups i (c + 1) := by
  induction c with
  | zero => intro i; simp [ups]
  | succ c ih =>
    intro i
    have h := ih (i + 1)
    rw [show i + 1 + c = i + (c + 1) by omega] at h
    rw [ups, List.cons_append, h]
    rfl

/-- The elements of a run of negated consecutive integers. -/
theorem downs_getElem (c : Nat) : ∀ i k, k < c →
    (downs i c)[k]? = some (-((i + k : Nat) : Int)) := by
  induction c with
  | zero => intro i k hk; omega
  | succ c ih =>
    intro i k hk
    cases k with
    | zero => simp [downs]
    | succ k =>
      rw [downs, List.getElem?_cons_succ, ih (i + 1) k (by omega)]
      rw [show i + 1 + k = i + (k + 1) by omega]

/-- The elements of the interleaved list. -/
theorem interleaved_getElem (n : Nat) : ∀ k, k < n →
    (interleaved n)[2 * k]? = some (-(k : Int)) ∧
    (interleaved n)[2 * k + 1]? = some (k : Int) := by
  induction n with
  | zero => intro k hk; omega
  | succ n ih =>
    intro k hk
    rw [interleaved, List.getElem?_append, List.getElem?_append, interleaved_length]
    by_cases h : k < n
    · have h1 : 2 * k < 2 * n := by omega
      have h2 : 2 * k + 1 < 2 * n := by omega
      rw [if_pos h1, if_pos h2]
      exact ih k h
    · have hk' : k = n := by omega
      subst hk'
      have h1 : ¬ 2 * k < 2 * k := by omega
      have h2 : ¬ 2 * k + 1 < 2 * k := by omega
      rw [if_neg h1, if_neg h2]
      simp

/-- The first loop of the test appends `i, i + 1, ..., n - 1`. -/
theorem test_fill_loop_spec (n : Nat) :
    ∀ (d i : Nat) (s : modern_dyn_int_array), d = n - i → i ≤ n → s.WellFormed →
      s.m_size = i → s.contents = ups 0 i →
      ∃ s', test_fill_loop n i s = Outcome.returned s' ∧ s'.WellFormed ∧ s'.m_size = n ∧
        s'.contents = ups 0 n := by
  intro d
  induction d with
  | zero =>
    intro i s hd hi hwf hsz hc
    have hin : i = n := by omega
    have hnlt : ¬ i < n := by omega
    rw [test_fill_loop, if_neg hnlt]
    exact ⟨s, rfl, hwf, by omega, by rw [hc, hin]⟩
  | succ d ih =>
    intro i s hd hi hwf hsz hc
    have hlt : i < n := by omega
    obtain ⟨s1, ha, hwf1, hsz1, hc1⟩ :=
      modern_dyn_int_array.add_contents s i (i : Int) hwf (by omega)
    have hlen : s.contents.length = i := by
      rw [modern_dyn_int_array.contents_length s hwf, hsz]
    have hc1' : s1.contents = ups 0 (i + 1) := by
      rw [hc1, List.take_of_length_le (by omega), List.drop_of_length_le (by omega), hc]
      have := ups_snoc i 0
      rw [Nat.zero_add] at this
      exact this
    obtain ⟨s', hs', hwf', hsz', hc'⟩ := ih (i + 1) s1 (by omega) (by omega) hwf1
      (by omega) hc1'
    refine ⟨s', ?_, hwf', hsz', hc'⟩
    rw [test_fill_loop, if_pos hlt, ha]
    exact hs'

/-- The second loop of the test puts `-i` in front of each `i`. -/
theorem test_interleave_loop_spec (n : Nat) :
    ∀ (d i : Nat) (s : modern_dyn_int_array), d = n - i → i ≤ n → s.WellFormed →
      s.m_size = n + i → s.contents = interleaved i ++ ups i (n - i) →
      ∃ s', test_interleave_loop n i s = Outcome.returned s' ∧ s'.WellFormed ∧
        s'.m_size = 2 * n ∧ s'.contents = interleaved n := by
  intro d
  induction d with
  | zero =>
    intro i s hd hi hwf hsz hc
    have hin : i = n := by omega
    have hnlt : ¬ i < n := by omega
    rw [test_interleave_loop, if_neg hnlt]
    refine ⟨s, rfl, hwf, by omega, ?_⟩
    rw [hc, hin, Nat.sub_self]
    simp [ups]
  | succ d ih =>
    intro i s hd hi hwf hsz hc
    have hlt : i < n := by omega
    obtain ⟨s1, ha, hwf1, hsz1, hc1⟩ :=
      modern_dyn_int_array.add_contents s (i * 2) (-(i : Int)) hwf (by omega)
    have hil : (interleaved i).length = i * 2 := by rw [interleaved_length]; omega
    have hups : ups i (n - i) = (i : Int) :: ups (i + 1) (n - (i + 1)) := by
      rw [show n - i = (n - (i + 1)) + 1 by omega, ups]
    have hc1' : s1.contents = interleaved (i + 1) ++ ups (i + 1) (n - (i + 1)) := by
      rw [hc1, hc, List.take_left' hil, List.drop_left' hil, hups, interleaved]
      simp
    obtain ⟨s', hs', hwf', hsz', hc'⟩ := ih (i + 1) s1 (by omega) (by omega) hwf1
      (by omega) hc1'
    refine ⟨s', ?_, hwf', hsz', hc'⟩
    rw [test_interleave_loop, if_pos hlt, ha]
    exact hs'

/-- The third loop of the test, entered at `2 * m - 1`, removes the `m` odd positions
below `2 * m`, from the back. -/
theorem test_remove_loop_spec (n : Nat) :
    ∀ (m : Nat) (s : modern_dyn_int_array), m ≤ n → s.WellFormed →
      s.m_size = n + m → s.contents = interleaved m ++ downs m (n - m) →
      ∃ s', test_remove_loop (2 * (m : Int) - 1) s = Outcome.returned s' ∧ s'.WellFormed ∧
        s'.m_size = n ∧ s'.contents = downs 0 n := by
  intro m
  induction m with
  | zero =>
    intro s _ hwf hsz hc
    have hneg : ¬ (0 : Int) ≤ 2 * ((0 : Nat) : Int) - 1 := by decide
    rw [test_remove_loop, if_neg hneg]
    refine ⟨s, rfl, hwf, by omega, ?_⟩
    rw [hc]
    simp [interleaved]
  | succ m ih =>
    intro s hm hwf hsz hc
    have hpos : (0 : Int) ≤ 2 * ((m + 1 : Nat) : Int) - 1 := by omega
    have htn : (2 * ((m + 1 : Nat) : Int) - 1).toNat = 2 * m + 1 := by omega
    have hnext : 2 * ((m + 1 : Nat) : Int) - 1 - 2 = 2 * (m : Int) - 1 := by omega
    obtain ⟨s1, hr, hwf1, hsz1, hc1⟩ :=
      modern_dyn_int_array.remove_contents s (2 * m + 1) hwf (by omega)
    have hdowns : downs m (n - m) = -(m : Int) :: downs (m + 1) (n - (m + 1)) := by
      rw [show n - m = (n - (m + 1)) + 1 by omega, downs]
    have hl1 : (interleaved m ++ [-(m : Int)]).length = 2 * m + 1 := by
      simp [interleaved_length]
    have hl2 : (interleaved m ++ [-(m : Int)] ++ [(m : Int)]).length = 2 * m + 1 + 1 := by
      simp [interleaved_length]
    have hc1' : s1.contents = interleaved m ++ downs m (n - m) := by
      rw [hc1, hc, interleaved, List.eraseIdx_eq_take_drop_succ, hdowns]
      have hsplit1 : interleaved m ++ [-(m : Int), (m : Int)] ++
          downs (m + 1) (n - (m + 1)) =
          (interleaved m ++ [-(m : Int)]) ++ ((m : Int) :: downs (m + 1) (n - (m + 1))) := by
        simp
      have hsplit2 : interleaved m ++ [-(m : Int), (m : Int)] ++
          downs (m + 1) (n - (m + 1)) =
          (interleaved m ++ [-(m : Int)] ++ [(m : Int)]) ++ downs (m + 1) (n - (m + 1)) := by
        simp
      rw [hsplit1, List.take_left' hl1, ← hsplit1, hsplit2, List.drop_left' hl2]
      simp
    obtain ⟨s', hs', hwf', hsz', hc'⟩ := ih s1 (by omega) hwf1 (by omega) hc1'
    refine ⟨s', ?_, hwf', hsz', hc'⟩
    rw [test_remove_loop, if_pos hpos, htn, hr]
    simp only [hnext]
    exact hs'

/-- C22: the interleaving scenario of the Week03 test holds for every length. For every
`n`, starting from a freshly constructed array, `add(k, k)` for `k = 0..n-1` and then
`add(2k, -k)` for `k = 0..n-1` return without an exception and yield size `2n` with
element `2k` equal to `-k` and element `2k + 1` equal to `k` for every `k < n`; then
`remove(i)` for `i = 2n-1, 2n-3, ..., 1` returns without an exception and leaves size `n`
with element `k` equal to `-k` for every `k < n`. -/
theorem test_interleaving_scenario (n : Nat) :
    ∃ s0 s1 s2 s3,
      modern_dyn_int_array.ctor = Outcome.returned s0 ∧
      test_fill_loop n 0 s0 = Outcome.returned s1 ∧
      test_interleave_loop n 0 s1 = Outcome.returned s2 ∧
      s2.size = 2 * n ∧
      (∀ k, k < n → s2.subscript (2 * k) = some (-(k : Int)) ∧
        s2.subscript (2 * k + 1) = some (k : Int)) ∧
      test_remove_start s2 = 2 * (n : Int) - 1 ∧
      test_remove_loop (test_remove_start s2) s2 = Outcome.returned s3 ∧
      s3.size = n ∧
      (∀ k, k < n → s3.subscript k = some (-(k : Int))) := by
  obtain ⟨s1, h1, hwf1, hsz1, hc1⟩ := test_fill_loop_spec n (n - 0) 0 _ rfl (Nat.zero_le n)
    modern_dyn_int_array.ctor_wellFormed rfl (by
      simp [modern_dyn_int_array.contents, ups])
  obtain ⟨s2, h2, hwf2, hsz2, hc2⟩ := test_interleave_loop_spec n (n - 0) 0 s1 rfl
    (Nat.zero_le n) hwf1 (by omega) (by simp [interleaved, hc1])
  obtain ⟨s3, h3, hwf3, hsz3, hc3⟩ := test_remove_loop_spec n n s2 (le_refl n) hwf2
    (by omega) (by simp [downs, hc2])
  have hstart : test_remove_start s2 = 2 * (n : Int) - 1 := by
    simp only [test_remove_start, modern_dyn_int_array.size, hsz2]
    push_cast
    ring
  refine ⟨_, s1, s2, s3, modern_dyn_int_array.ctor_eq, h1, h2, hsz2, fun k hk => ?_, hstart,
    by rw [hstart]; exact h3, hsz3, fun k hk => ?_⟩
  · rw [modern_dyn_int_array.subscript_eq_contents s2 _ (by omega),
      modern_dyn_int_array.subscript_eq_contents s2 _ (by omega), hc2]
    exact interleaved_getElem n k hk
  · rw [modern_dyn_int_array.subscript_eq_contents s3 _ (by omega), hc3,
      downs_getElem n 0 k hk, Nat.zero_add]

/-- C22, at the length 15 of the test. -/
theorem test_interleaving_scenario_witness :
    ∃ s0 s1 s2 s3,
      modern_dyn_int_array.ctor = Outcome.returned s0 ∧
      test_fill_loop 15 0 s0 = Outcome.returned s1 ∧
      test_interleave_loop 15 0 s1 = Outcome.returned s2 ∧
      s2.size = 2 * 15 ∧
      (∀ k, k < 15 → s2.subscript (2 * k) = some (-(k : Int)) ∧
        s2.subscript (2 * k + 1) = some (k : Int)) ∧
      test_remove_start s2 = 2 * ((15 : Nat) : Int) - 1 ∧
      test_remove_loop (test_remove_start s2) s2 = Outcome.returned s3 ∧
      s3.size = 15 ∧
      (∀ k, k < 15 → s3.subscript k = some (-(k : Int))) :=
  test_interleaving_scenario 15
